import Mathlib

/-!
Verification development for the object-storage gateway
(piotrpersona/homework-object-storage).

The definitions below are a shallow embedding of the node-discovery and
consistent-hash routing layer of `src/internal/storage/storage.go`, together
with the parts of its dependencies that the routing layer observes:

- the xxHash64 function (github.com/cespare/xxhash/v2) used as the ring's
  `Hasher`,
- the consistent-hash ring (github.com/buraksezer/consistent): configuration
  defaulting in `New`, member registration `Add`, partition distribution
  `distributePartitions` / `distributeWithLoad`, and `LocateKey`,
- the MinIO-backed single-node store, modelled as explicit state passing over
  an abstract backend world.

Machine integers (`uint64`) are natural numbers reduced modulo `2 ^ 64`.
Fallible Go code returns `Except`; Go panics are a distinguished outcome.
-/

set_option maxHeartbeats 1600000
set_option maxRecDepth 1000000

namespace ObjectStorage

/-! ## xxHash64 (github.com/cespare/xxhash/v2, seed 0)

`Sum64` of the Go package implements the reference XXH64 algorithm with
seed 0.  Byte strings are `List Nat` with entries below 256. -/

def M64 : Nat := 2 ^ 64

def prime1 : Nat := 11400714785074694791
def prime2 : Nat := 14029467366897019727
def prime3 : Nat := 1609587929392839161
def prime4 : Nat := 9650029242287828579
def prime5 : Nat := 2870177450012600261

/-- Rotate a 64-bit word left by `r` bits (`0 < r < 64`). -/
def rotl64 (x r : Nat) : Nat :=
  x % 2 ^ (64 - r) * 2 ^ r + x / 2 ^ (64 - r)

/-- The XXH64 accumulator round: `rotl(acc + lane*prime2, 31) * prime1`. -/
def round64 (acc lane : Nat) : Nat :=
  rotl64 ((acc + lane * prime2) % M64) 31 * prime1 % M64

/-- The XXH64 merge round used after the 32-byte stripe loop. -/
def mergeRound64 (h v : Nat) : Nat :=
  ((h ^^^ round64 0 v) * prime1 + prime4) % M64

/-- Little-endian read of the first `k` bytes of `l` as one integer. -/
def readLE (k : Nat) (l : List Nat) : Nat :=
  (l.take k).foldr (fun b acc => b + 256 * acc) 0

/-- The 32-byte stripe loop of XXH64; returns the four lane accumulators and
the unconsumed tail.  The fuel argument only bounds the iteration count (each
iteration consumes 32 bytes, so any fuel of at least `l.length` is exact); it
keeps the recursion structural so that proofs can evaluate the function. -/
def stripesF : Nat → List Nat → Nat → Nat → Nat → Nat → (Nat × Nat × Nat × Nat) × List Nat
  | 0, l, v1, v2, v3, v4 => ((v1, v2, v3, v4), l)
  | fuel + 1, l, v1, v2, v3, v4 =>
    if 32 ≤ l.length then
      stripesF fuel (l.drop 32) (round64 v1 (readLE 8 l)) (round64 v2 (readLE 8 (l.drop 8)))
        (round64 v3 (readLE 8 (l.drop 16))) (round64 v4 (readLE 8 (l.drop 24)))
    else ((v1, v2, v3, v4), l)

def stripes (l : List Nat) (v1 v2 v3 v4 : Nat) : (Nat × Nat × Nat × Nat) × List Nat :=
  stripesF l.length l v1 v2 v3 v4

/-- The 8-byte chunk loop of the XXH64 finalization (fuel as in `stripesF`). -/
def tail8F : Nat → List Nat → Nat → Nat × List Nat
  | 0, l, h => (h, l)
  | fuel + 1, l, h =>
    if 8 ≤ l.length then
      tail8F fuel (l.drop 8) ((rotl64 (h ^^^ round64 0 (readLE 8 l)) 27 * prime1 + prime4) % M64)
    else (h, l)

def tail8 (l : List Nat) (h : Nat) : Nat × List Nat :=
  tail8F l.length l h

/-- The byte-at-a-time loop of the XXH64 finalization. -/
def tailBytes : List Nat → Nat → Nat
  | [], h => h
  | b :: bs, h => tailBytes bs (rotl64 (h ^^^ (b * prime5 % M64)) 11 * prime1 % M64)

/-- The XXH64 avalanche (final mixing). -/
def avalanche (h0 : Nat) : Nat :=
  let h1 := h0 ^^^ (h0 / 2 ^ 33)
  let h2 := h1 * prime2 % M64
  let h3 := h2 ^^^ (h2 / 2 ^ 29)
  let h4 := h3 * prime3 % M64
  h4 ^^^ (h4 / 2 ^ 32)

/-- XXH64 with seed 0 over a byte string, exactly as computed by
`xxhash.Sum64` in the Go sources. -/
def xxh64 (input : List Nat) : Nat :=
  let n := input.length
  let hrest : Nat × List Nat :=
    if 32 ≤ n then
      let s := stripes input ((prime1 + prime2) % M64) prime2 0 (M64 - prime1)
      let v1 := s.1.1
      let v2 := s.1.2.1
      let v3 := s.1.2.2.1
      let v4 := s.1.2.2.2
      let h0 := (rotl64 v1 1 + rotl64 v2 7 + rotl64 v3 12 + rotl64 v4 18) % M64
      (mergeRound64 (mergeRound64 (mergeRound64 (mergeRound64 h0 v1) v2) v3) v4, s.2)
    else (prime5, input)
  let h5 := (hrest.1 + n) % M64
  let t8 := tail8 hrest.2 h5
  let t4 : Nat × List Nat :=
    if 4 ≤ t8.2.length then
      ((rotl64 (t8.1 ^^^ (readLE 4 t8.2 * prime1 % M64)) 23 * prime2 + prime3) % M64, t8.2.drop 4)
    else t8
  avalanche (tailBytes t4.2 t4.1)

/-- UTF-8 encoding of a single code point. -/
def utf8Char (c : Nat) : List Nat :=
  if c < 128 then [c]
  else if c < 2048 then [192 + c / 64, 128 + c % 64]
  else if c < 65536 then [224 + c / 4096, 128 + c / 64 % 64, 128 + c % 64]
  else [240 + c / 262144, 128 + c / 4096 % 64, 128 + c / 64 % 64, 128 + c % 64]

/-- The bytes of a Go string (UTF-8), as produced by `[]byte(s)`. -/
def utf8Bytes (s : String) : List Nat :=
  (s.toList.map (fun c => utf8Char c.toNat)).flatten

/-- The 8 little-endian bytes of a `uint64`, as produced by
`binary.LittleEndian.PutUint64`. -/
def leBytes8 (n : Nat) : List Nat :=
  (List.range 8).map (fun i => n / 256 ^ i % 256)

/-! ## Storage nodes and node discovery (`storage.go`)

`getStorageNodes` lists the running containers, skips candidates without
network settings, derives endpoint and credentials, and keeps the candidates
whose first name contains the worker-name pattern.  The Docker client calls
(`ContainerList` filtered to running containers, `ContainerInspect` for the
environment) are external collaborators; the model's input is the list of
running containers together with their inspected environment, and the
fail-fast error paths of the two Docker calls are not exercised by any claim
settled here. -/

def workerContainerNamePattern : String := "amazin-object-storage-node-"
def dockerNetwork : String := "homework-object-storage_amazin-object-storage"
def accessKeyEnv : String := "MINIO_ACCESS_KEY"
def secretKeyEnv : String := "MINIO_SECRET_KEY"
def minioWorkerPort : Nat := 9000

structure StorageNode where
  id : String
  name : String
  endpoint : String
  accessKey : String
  secretKey : String
deriving DecidableEq, Repr

/-- The zero value of the Go struct `storageNode`, produced by indexing a map
with an absent key. -/
def zeroNode : StorageNode := ⟨ "", "", "", "", "" ⟩

/-- `storageNode.String()`, i.e. `fmt.Sprintf("%s.%s", n.ID, n.Name)`. -/
def nodeStr (n : StorageNode) : String := n.id ++ "." ++ n.name

/-- Go `strings.Contains s sub`. -/
def goContains (s sub : String) : Bool :=
  decide (sub.toList <:+: s.toList)

/-- Insert into a string-keyed association map with Go map semantics: the new
binding replaces any previous binding of the same key. -/
def assocPut {α : Type} (m : List (String × α)) (k : String) (v : α) : List (String × α) :=
  m.filter (fun p => decide (p.1 ≠ k)) ++ [(k, v)]

/-- Go map read with a `String` zero value for absent keys. -/
def assocGetStr (m : List (String × String)) (k : String) : String :=
  ((m.find? (fun p => decide (p.1 = k))).map Prod.snd).getD ""

/-- Splitting a character list at every occurrence of `sep`. -/
def splitOnChar (sep : Char) : List Char → List (List Char)
  | [] => [[]]
  | x :: xs =>
    let r := splitOnChar sep xs
    if x = sep then [] :: r
    else
      match r with
      | [] => [[x]]
      | g :: gs => (x :: g) :: gs

/-- Go `strings.Split(s, "=")`: the segments of `s` between occurrences of
`=` (an empty string yields one empty segment, as in Go). -/
def goSplitEq (s : String) : List String :=
  (splitOnChar (Char.ofNat 61) s.toList).map List.asString

/-- Environment parsing of `getStorageNodes`: each entry is split with
`strings.Split(env, "=")` (splitting at EVERY `=`), and entries with at least
two segments map the first segment to the second. -/
def parseEnv (env : List String) : List (String × String) :=
  env.foldl
    (fun acc e =>
      match goSplitEq e with
      | k :: v :: _ => assocPut acc k v
      | _ => acc)
    []

/-- A running container as observed through the Docker API: identifier,
declared names, optional network settings (network name to private IP), and
inspected environment entries. -/
structure ContainerInfo where
  id : String
  names : List String
  networks : Option (List (String × String))
  env : List String
deriving DecidableEq, Repr

/-- The candidate's IP address on the configured virtual network.
`NetworkSettings.Networks` is a Go map from network name to a POINTER
(`*EndpointSettings`): a present key models a non-nil pointer carrying the
endpoint's IP, and an absent key yields the nil pointer, whose `.IPAddress`
field selector panics. -/
def netLookup (nets : List (String × String)) : Option String :=
  (nets.find? (fun p => decide (p.1 = dockerNetwork))).map Prod.snd

/-- The `storageNode` value built from one candidate container inside the
`containerLoop` of `getStorageNodes`, given the IP read off the configured
network (Go reads it after the nil check on `NetworkSettings`). -/
def nodeOfContainer (c : ContainerInfo) (ip : String) : StorageNode :=
  let envMap := parseEnv c.env
  { id := c.id
  , name := (c.names.head?).getD ""
  , endpoint := ip ++ ":" ++ Nat.repr minioWorkerPort
  , accessKey := assocGetStr envMap accessKeyEnv
  , secretKey := assocGetStr envMap secretKeyEnv }

/-- The body of the `containerLoop`: skip a candidate without network
settings; otherwise read the IP on the configured network — `none` models
the nil-`*EndpointSettings` dereference panic (storage.go line 162), which
strikes BEFORE the name filter — and insert the node when its name matches
the worker pattern. -/
def discoverStep (acc : List (String × StorageNode)) (c : ContainerInfo) :
    Option (List (String × StorageNode)) :=
  match c.networks with
  | none => some acc
  | some nets =>
    match netLookup nets with
    | none => none
    | some ip =>
      let node := nodeOfContainer c ip
      if goContains node.name workerContainerNamePattern then
        some (assocPut acc (nodeStr node) node)
      else some acc

/-- The `containerLoop` fold, propagating the nil-pointer panic. -/
def getStorageNodesGo : List ContainerInfo → List (String × StorageNode) →
    Option (List (String × StorageNode))
  | [], acc => some acc
  | c :: cs, acc =>
    match discoverStep acc c with
    | none => none
    | some acc2 => getStorageNodesGo cs acc2

/-- `getStorageNodes`: the directory of storage nodes, as a map keyed by
`storageNode.String()`, built from the running containers; `none` is the
nil-pointer panic raised by a candidate that has network settings but is not
attached to the configured network. -/
def getStorageNodes (containers : List ContainerInfo) :
    Option (List (String × StorageNode)) :=
  getStorageNodesGo containers []

/-- What one candidate does to the loop: `none` is the nil-pointer panic,
`some none` a candidate skipped (no network settings) or filtered out by the
name check, `some (some (k, v))` a contributed directory entry. -/
def keptEntry (c : ContainerInfo) : Option (Option (String × StorageNode)) :=
  match c.networks with
  | none => some none
  | some nets =>
    match netLookup nets with
    | none => none
    | some ip =>
      let node := nodeOfContainer c ip
      if goContains node.name workerContainerNamePattern then
        some (some (nodeStr node, node))
      else some none

/-- The directory entry a candidate contributes on a panic-free pass. -/
def contributedEntry (c : ContainerInfo) : Option (String × StorageNode) :=
  match keptEntry c with
  | some (some kv) => some kv
  | _ => none

/-- A candidate that cannot trigger the nil-pointer panic: either no network
settings at all, or attached to the configured network. -/
def networkSafe (c : ContainerInfo) : Bool :=
  (keptEntry c).isSome

/-- Go map read on the node directory (`storageNodes[storageID]`), yielding
the zero `storageNode` for an absent key. -/
def dirGet (dir : List (String × StorageNode)) (k : String) : StorageNode :=
  ((dir.find? (fun p => decide (p.1 = k))).map Prod.snd).getD zeroNode

/-! ## The consistent-hash ring (github.com/buraksezer/consistent)

`registerStorageNodes` builds `consistent.Config{PartitionCount:
len(storageNodes), ReplicationFactor: 0, Load: 1.25, Hasher: xxhash}`, calls
`consistent.New(nil, cfg)` and then `Add`s every node of the directory map
(in Go's arbitrary map iteration order, which the model takes as an explicit
`order` argument).

The library semantics modelled here:

- `New` replaces every zero configuration field by the library default
  (`PartitionCount` 271, `ReplicationFactor` 20, `Load` 1.25); with a `nil`
  member slice it performs no partition distribution, leaving the partition
  table empty.
- `Add` skips a member whose `String()` is already registered; otherwise it
  appends `ReplicationFactor` ring entries hashed from `fmt.Sprintf("%s%d",
  member.String(), i)` (later writes to the same hash overwrite earlier
  ones), keeps the hash list sorted ascending, and redistributes all
  partitions.  Every redistribution recomputes the partition table from
  scratch from the current ring, so the table after the last `Add` — the only
  one `LocateKey` can observe here — is the distribution of the final ring,
  which is what the model computes.
- `distributePartitions` maps each partition id `p` to the hash of its 8
  little-endian bytes, binary-searches the sorted hash list for the first
  entry at least that hash (wrapping to 0 past the end), and walks the ring
  from there (`distributeWithLoad`) to the first member whose load may still
  grow to at most the average load `ceil((partitions/members) * Load)`
  (integer division, as in the library).  After `len(sortedSet) - 1`
  fruitless steps the library panics ("not enough room to distribute
  partitions"); the model returns `none` for that panic.
- `LocateKey key` looks up the partition `hash(key) % partitionCount`; an
  undistributed partition yields a `nil` member.

`Load` is a `float64`; all values involved here are exact multiples of 0.25,
so the model carries the load factor as a count of quarters (1.25 ↦ 5). -/

structure RingConfig where
  partitionCount : Nat
  replicationFactor : Nat
  loadQuarters : Nat
deriving DecidableEq, Repr

def defaultPartitionCount : Nat := 271
def defaultReplicationFactor : Nat := 20
def defaultLoadQuarters : Nat := 5

/-- The configuration defaulting performed by `consistent.New`: every zero
field is replaced by the library default. -/
def resolveConfig (c : RingConfig) : RingConfig :=
  { partitionCount := if c.partitionCount = 0 then defaultPartitionCount else c.partitionCount
  , replicationFactor :=
      if c.replicationFactor = 0 then defaultReplicationFactor else c.replicationFactor
  , loadQuarters := if c.loadQuarters = 0 then defaultLoadQuarters else c.loadQuarters }

/-- The configuration literal of `registerStorageNodes` for a directory of
`n` nodes: partition count `n`, replication factor 0, load 1.25. -/
def ringConfigFor (n : Nat) : RingConfig :=
  { partitionCount := n, replicationFactor := 0, loadQuarters := 5 }

/-- `Consistent.AverageLoad`: 0 without members, otherwise
`ceil(float64(partitionCount / members) * Load)` with integer division, here
for a load factor of `loadQuarters / 4`. -/
def averageLoad (membersCount pc loadQuarters : Nat) : Nat :=
  if membersCount = 0 then 0 else (pc / membersCount * loadQuarters + 3) / 4

/-- The replica key strings a member occupies on the ring:
`fmt.Sprintf("%s%d", member.String(), i)` for `i < ReplicationFactor`. -/
def replicaKeys (rf : Nat) (n : StorageNode) : List String :=
  (List.range rf).map (fun i => nodeStr n ++ Nat.repr i)

/-- The ring hashes of one member's replica keys. -/
def replicaHashes (rf : Nat) (n : StorageNode) : List Nat :=
  (replicaKeys rf n).map (fun s => xxh64 (utf8Bytes s))

/-- The members actually registered by the sequence of `Add` calls: a member
whose `String()` was already seen is skipped. -/
def addedNodes : List StorageNode → List String → List StorageNode
  | [], _ => []
  | n :: ns, seen =>
    if nodeStr n ∈ seen then addedNodes ns seen
    else n :: addedNodes ns (nodeStr n :: seen)

def dedupNodes (order : List StorageNode) : List StorageNode :=
  addedNodes order []

/-- The write sequence into the `ring` hash map: every member contributes one
`(hash, member)` entry per replica key, in registration order. -/
def ringPairs (rf : Nat) (nodes : List StorageNode) : List (Nat × StorageNode) :=
  nodes.flatMap (fun n => (replicaHashes rf n).map (fun h => (h, n)))

/-- `ring[h]` after all writes: the LAST member that wrote hash `h`. -/
def ringOwner (pairs : List (Nat × StorageNode)) (h : Nat) : Option StorageNode :=
  ((pairs.reverse.find? (fun p => decide (p.1 = h))).map Prod.snd)

/-- `sort.Search` of `distributePartitions` followed by the wrap-around
`if idx >= len(c.sortedSet) { idx = 0 }`: the first index whose hash is at
least `k` (`List.findIdx` returns the length when there is none, exactly as
`sort.Search` returns `n`). -/
def searchIdx (ss : List Nat) (k : Nat) : Nat :=
  let i := ss.findIdx (fun v => decide (k ≤ v))
  if ss.length ≤ i then 0 else i

/-- `distributeWithLoad`: walk the sorted ring from `idx`, looking for a
member whose load may grow to at most `avg`.  The fuel is
`len(sortedSet) - 1`; exhausting it models the library panic "not enough room
to distribute partitions" (`count >= len(c.sortedSet)`). -/
def distributeWithLoad (ss : List Nat) (owner : Nat → Option StorageNode) (avg : Nat)
    (loads : String → Nat) : Nat → Nat → Option StorageNode
  | _, 0 => none
  | idx, fuel + 1 =>
    match ss[idx]? with
    | none => none
    | some v =>
      match owner v with
      | none => none
      | some m =>
        if loads (nodeStr m) + 1 ≤ avg then some m
        else distributeWithLoad ss owner avg loads
          (if ss.length ≤ idx + 1 then 0 else idx + 1) fuel

/-- `distributePartitions`: distribute partition ids `pc - remaining` up to
`pc - 1`, accumulating per-member loads and the partition table; `none`
models the library panic inside `distributeWithLoad`. -/
def distributeLoop (ss : List Nat) (owner : Nat → Option StorageNode) (avg pc : Nat) :
    Nat → (String → Nat) → (Nat → Option StorageNode) → Option (Nat → Option StorageNode)
  | 0, _, parts => some parts
  | remaining + 1, loads, parts =>
    let partID := pc - (remaining + 1)
    let idx := searchIdx ss (xxh64 (leBytes8 partID))
    match distributeWithLoad ss owner avg loads idx (ss.length - 1) with
    | none => none
    | some m =>
      distributeLoop ss owner avg pc remaining
        (fun s => if s = nodeStr m then loads s + 1 else loads s)
        (fun p => if p = partID then some m else parts p)

/-- The observable state of the ring built by `registerStorageNodes` from the
directory values in iteration order `order`.  `parts = none` models a library
panic while distributing; with no members at all (`New(nil, cfg)` and no
`Add`) the partition table is empty and every lookup yields a `nil` member. -/
structure RingState where
  pc : Nat
  rf : Nat
  avg : Nat
  ss : List Nat
  pairs : List (Nat × StorageNode)
  memberStrs : List String
  parts : Option (Nat → Option StorageNode)

/-- The resolved partition count of `registerStorageNodes` for a directory
iterated as `order`: the configured `len(storageNodes)`, defaulted by `New`. -/
def ringPC (order : List StorageNode) : Nat :=
  (resolveConfig (ringConfigFor order.length)).partitionCount

/-- The resolved replication factor (configured 0, defaulted to 20). -/
def ringRF (order : List StorageNode) : Nat :=
  (resolveConfig (ringConfigFor order.length)).replicationFactor

/-- The resolved load factor in quarters (configured 1.25, kept). -/
def ringLQ (order : List StorageNode) : Nat :=
  (resolveConfig (ringConfigFor order.length)).loadQuarters

/-- The ring write sequence produced by the `Add` calls. -/
def ringPairsOf (order : List StorageNode) : List (Nat × StorageNode) :=
  ringPairs (ringRF order) (dedupNodes order)

/-- The sorted hash list `c.sortedSet` after the last `Add`. -/
def ringSS (order : List StorageNode) : List Nat :=
  List.insertionSort (fun a b => a ≤ b) ((ringPairsOf order).map Prod.fst)

/-- `c.AverageLoad()` after the last `Add`. -/
def ringAvg (order : List StorageNode) : Nat :=
  averageLoad (dedupNodes order).length (ringPC order) (ringLQ order)

/-- The partition table after the last `Add`: empty when no member was ever
added (`New(nil, cfg)` distributes nothing), otherwise the distribution of
the final ring; `none` models the library panic. -/
def ringParts (order : List StorageNode) : Option (Nat → Option StorageNode) :=
  if order.isEmpty then some (fun _ => none)
  else distributeLoop (ringSS order) (ringOwner (ringPairsOf order)) (ringAvg order)
    (ringPC order) (ringPC order) (fun _ => 0) (fun _ => none)

/-- `registerStorageNodes`: resolve the configuration, register every
directory value, and distribute the partitions of the final ring. -/
def buildRing (order : List StorageNode) : RingState :=
  ⟨ ringPC order, ringRF order, ringAvg order, ringSS order, ringPairsOf order,
    (dedupNodes order).map nodeStr, ringParts order ⟩

/-- `LocateKey` composed with the ring construction: the routing decision for
a key against a directory registered in iteration order `order`.  `none`
covers both failure modes (a distribution panic and a `nil` member); the
router distinguishes them, see `getStorageWorker`. -/
def routeKey (order : List StorageNode) (key : List Nat) : Option StorageNode :=
  let st := buildRing order
  st.parts.bind (fun p => p (xxh64 key % st.pc))

/-! ## The single-node MinIO store and the balanced router

Modelled from the spec: the single-node object store behind `minio-go` is an
external collaborator ("a key/value put-get backend reachable over a network
protocol, treated as an opaque capability {Put, Get, EnsureContainerExists}",
spec section 1, with bucket-style put/get/exists/create semantics, spec
section 6).  `MinioWorld` is that capability's state: per (endpoint, bucket)
bucket existence and per (endpoint, bucket, id) stored objects, plus
injectable failures for each remote call so that the error paths of
`storage.go` can be exercised.  The wrapper code of `minioStorage`
(`Setup`/`Put`/`Get`, storage.go lines 62-110) and of `balancedStorage`
(lines 202-277) is modelled from the source. -/

structure MinioWorld where
  existsErr : String → String → Option String
  hasBucket : String → String → Bool
  makeErr : String → String → Option String
  putErr : String → String → String → Option String
  getErr : String → String → String → Option String
  statErr : String → String → String → Option String
  readErr : String → String → String → Option String
  objects : String → String → String → Option (String × List Nat)

/-- A backend world with no injected failures. -/
def Faultless (w : MinioWorld) : Prop :=
  (∀ e b, w.existsErr e b = none) ∧ (∀ e b, w.makeErr e b = none) ∧
  (∀ e b i, w.putErr e b i = none) ∧ (∀ e b i, w.getErr e b i = none) ∧
  (∀ e b i, w.statErr e b i = none) ∧ (∀ e b i, w.readErr e b i = none)

/-- The empty, failure-free backend world. -/
def idleWorld : MinioWorld :=
  { existsErr := fun _ _ => none
  , hasBucket := fun _ _ => false
  , makeErr := fun _ _ => none
  , putErr := fun _ _ _ => none
  , getErr := fun _ _ _ => none
  , statErr := fun _ _ _ => none
  , readErr := fun _ _ _ => none
  , objects := fun _ _ _ => none }

/-- The Go struct `minioConfig` (storage.go lines 34-39). -/
structure MinioConfig where
  endpoint : String
  accessKey : String
  secretKey : String
  bucketName : String
deriving DecidableEq, Repr

/-- The `minioConfig` literal built for a routed node (storage.go 210-215). -/
def configOf (n : StorageNode) (bucket : String) : MinioConfig :=
  ⟨ n.endpoint, n.accessKey, n.secretKey, bucket ⟩

/-- The result of a Go call that can also crash: `panic` models a runtime
panic, `fail` a non-nil returned `error`. -/
inductive GoOutcome (α : Type) where
  | panic
  | fail (msg : String)
  | ok (val : α)
deriving DecidableEq, Repr

/-- Modelled from the spec: the MinIO server message for a `Stat` on an
absent object (the spec's opaque backend reports a get of a missing key as an
upstream failure; the exact text is the collaborator's, not the core's). -/
def missingKeyMsg : String := "The specified key does not exist."

/-- `minioStorage.Setup` (storage.go 62-79): bucket-exists probe, early
return when already owned, otherwise conditional create; failures of either
remote call are wrapped WITHOUT any node identifier. -/
def minioSetup (cfg : MinioConfig) (w : MinioWorld) : Except String MinioWorld :=
  match w.existsErr cfg.endpoint cfg.bucketName with
  | some e => .error ("cannot get bucket info, err: " ++ e)
  | none =>
    if w.hasBucket cfg.endpoint cfg.bucketName then .ok w
    else
      match w.makeErr cfg.endpoint cfg.bucketName with
      | some e => .error ("cannot create bucket " ++ cfg.bucketName ++ ", err: " ++ e)
      | none =>
        .ok { w with hasBucket := fun e b =>
                if e = cfg.endpoint ∧ b = cfg.bucketName then true else w.hasBucket e b }

/-- `minioStorage.Put` (storage.go 81-90): store the body and content type
under the object id. -/
def minioPut (cfg : MinioConfig) (w : MinioWorld) (id contentType : String) (body : List Nat) :
    Except String MinioWorld :=
  match w.putErr cfg.endpoint cfg.bucketName id with
  | some e => .error ("cannot put object \x27" ++ id ++ "\x27 into storage instance, err: " ++ e)
  | none =>
    .ok { w with objects := fun e b i =>
            if e = cfg.endpoint ∧ b = cfg.bucketName ∧ i = id then some (contentType, body)
            else w.objects e b i }

/-- `minioStorage.Get` (storage.go 92-110): open the object, `Stat` it for
the content type, then read the full body with `io.ReadAll`. -/
def minioGet (cfg : MinioConfig) (w : MinioWorld) (id : String) :
    Except String (List Nat × String) :=
  match w.getErr cfg.endpoint cfg.bucketName id with
  | some e => .error ("cannot get object \x27" ++ id ++ "\x27, err: " ++ e)
  | none =>
    match w.objects cfg.endpoint cfg.bucketName id with
    | none => .error ("cannot get object stats, err: " ++ missingKeyMsg)
    | some obj =>
      match w.statErr cfg.endpoint cfg.bucketName id with
      | some e => .error ("cannot get object stats, err: " ++ e)
      | none =>
        match w.readErr cfg.endpoint cfg.bucketName id with
        | some e => .error ("cannot read object \x27" ++ id ++ "\x27 body, err: " ++ e)
        | none => .ok (obj.2, obj.1)

/-- `getStorageWorker` (storage.go 202-228): discover the directory, build
the ring, locate the key's node, connect and provision it.

- `containers` is the Docker inventory (the listing and inspection calls are
  assumed to succeed; their fail-fast error path is not exercised here);
- `order` is the arbitrary order in which `registerStorageNodes` ranges over
  the directory map — theorems constrain it to enumerate the directory;
- a `nil` member from `LocateKey` panics at `.String()` (line 208), and a
  library panic inside `Add` propagates: both are `GoOutcome.panic`;
- `newMinioStorage` only fails on a malformed endpoint and is modelled as
  succeeding;
- a `Setup` failure is returned as-is: the annotation branch at lines
  222-225 sits after a successful `Setup` and is dead code. -/
def getStorageWorker (containers : List ContainerInfo) (order : List StorageNode)
    (w : MinioWorld) (bucket id : String) : GoOutcome (MinioConfig × String × MinioWorld) :=
  match getStorageNodes containers with
  | none => .panic
  | some dir =>
    let st := buildRing order
    match st.parts with
    | none => .panic
    | some p =>
      match p (xxh64 (utf8Bytes id) % st.pc) with
      | none => .panic
      | some m =>
        let storageID := nodeStr m
        let node := dirGet dir storageID
        let cfg := configOf node bucket
        match minioSetup cfg w with
        | .error e => .fail e
        | .ok w2 => .ok (cfg, storageID, w2)

/-- `balancedStorage.Put` (storage.go 255-265): route, provision, then store;
a put failure is wrapped with the worker identifier. -/
def balancedPut (containers : List ContainerInfo) (order : List StorageNode) (w : MinioWorld)
    (bucket id contentType : String) (body : List Nat) : GoOutcome MinioWorld :=
  match getStorageWorker containers order w bucket id with
  | .panic => .panic
  | .fail e => .fail e
  | .ok (cfg, storageID, w2) =>
    match minioPut cfg w2 id contentType body with
    | .error e => .fail ("cannot put using worker \x27" ++ storageID ++ "\x27, err: " ++ e)
    | .ok w3 => .ok w3

/-- `balancedStorage.Get` (storage.go 267-277): route, provision, then fetch;
a get failure is wrapped with the worker identifier. -/
def balancedGet (containers : List ContainerInfo) (order : List StorageNode) (w : MinioWorld)
    (bucket id : String) : GoOutcome (List Nat × String) :=
  match getStorageWorker containers order w bucket id with
  | .panic => .panic
  | .fail e => .fail e
  | .ok (cfg, storageID, w2) =>
    match minioGet cfg w2 id with
    | .error e => .fail ("cannot get using worker \x27" ++ storageID ++ "\x27, err: " ++ e)
    | .ok r => .ok r

/-- The per-node body of bulk `Setup` (storage.go 230-253), iterating the
directory values in map order; returns the outcome together with the list of
nodes actually attempted.  `newMinioStorage` is modelled as succeeding, so
the first failing provisioning aborts the loop with the wrapped error. -/
def balancedSetupLoop (bucket : String) :
    List StorageNode → MinioWorld → GoOutcome MinioWorld × List StorageNode
  | [], w => (.ok w, [])
  | n :: ns, w =>
    match minioSetup (configOf n bucket) w with
    | .error e => (.fail ("cannot setup storage " ++ nodeStr n ++ ", err: " ++ e), [n])
    | .ok w2 =>
      let r := balancedSetupLoop bucket ns w2
      (r.1, n :: r.2)

/-- `balancedStorage.Setup`: discover the directory (propagating its
nil-pointer panic), then provision every node, aborting at the first
failure.  The inventory listing is assumed to succeed and `order` is the
iteration order over the discovered directory. -/
def balancedSetup (containers : List ContainerInfo) (order : List StorageNode)
    (w : MinioWorld) (bucket : String) : GoOutcome MinioWorld × List StorageNode :=
  match getStorageNodes containers with
  | none => (.panic, [])
  | some _ => balancedSetupLoop bucket order w

/-! ## Concrete fixtures used by witnesses and counterexamples -/

def nodeA : StorageNode := ⟨ "a", "x", "", "", "" ⟩
def nodeB : StorageNode := ⟨ "b", "y", "", "", "" ⟩
def nodeC : StorageNode := ⟨ "c", "z", "", "", "" ⟩

/-- The byte string of the key "foo" from the spec's scenario. -/
def fooKey : List Nat := utf8Bytes "foo"

/-- A running worker container with endpoint 10.0.0.2:9000. -/
def worker1 : ContainerInfo :=
  ⟨ "n1", ["amazin-object-storage-node-1"], some [(dockerNetwork, "10.0.0.2")]
  , [accessKeyEnv ++ "=ak", secretKeyEnv ++ "=sk"] ⟩

/-- The storage node discovered from `worker1`. -/
def worker1Node : StorageNode :=
  ⟨ "n1", "amazin-object-storage-node-1", "10.0.0.2:9000", "ak", "sk" ⟩

/-- A backend world whose bucket-existence probe always fails. -/
def probeFailWorld : MinioWorld :=
  { idleWorld with existsErr := fun _ _ => some "boom" }

/-- A running container with no attached network information. -/
def noNetContainer : ContainerInfo :=
  ⟨ "n2", ["amazin-object-storage-node-2"], none, [] ⟩

/-- A running container whose name does not match the worker pattern. -/
def foreignContainer : ContainerInfo :=
  ⟨ "n3", ["postgres"], some [(dockerNetwork, "10.0.0.9")], [] ⟩

/-- A running container attached to a network other than the configured one
(its `Networks` map has no entry for `dockerNetwork`, i.e. a nil
`*EndpointSettings`), though its name matches the worker pattern. -/
def offNetworkContainer : ContainerInfo :=
  ⟨ "n4", ["amazin-object-storage-node-4"], some [("bridge", "172.17.0.2")], [] ⟩

/-! ## Theorems -/

/-! ### Ring toolkit -/

theorem buildRing_parts (order : List StorageNode) : (buildRing order).parts = ringParts order :=
  rfl

theorem buildRing_pc (order : List StorageNode) : (buildRing order).pc = ringPC order :=
  rfl

theorem routeKey_eq (order : List StorageNode) (key : List Nat) :
    routeKey order key = (ringParts order).bind (fun p => p (xxh64 key % ringPC order)) := by
  show (buildRing order).parts.bind (fun p => p (xxh64 key % (buildRing order).pc)) =
    (ringParts order).bind (fun p => p (xxh64 key % ringPC order))
  rw [buildRing_parts, buildRing_pc]

theorem searchIdx_lt (ss : List Nat) (k : Nat) (h : 0 < ss.length) :
    searchIdx ss k < ss.length := by
  unfold searchIdx
  by_cases hc : ss.length ≤ ss.findIdx (fun v => decide (k ≤ v))
  · simpa [hc] using h
  · simpa [hc] using Nat.lt_of_not_le hc

/-- The member stored at a ring hash is one that wrote it: a successful
`ring[h]` lookup yields a pair of the write sequence. -/
theorem ringOwner_mem (pairs : List (Nat × StorageNode)) (h : Nat)
    (hmem : h ∈ pairs.map Prod.fst) :
    ∃ n, ringOwner pairs h = some n ∧ (h, n) ∈ pairs := by
  obtain ⟨ p, hp, hfst ⟩ := List.mem_map.mp hmem
  rcases hfind : pairs.reverse.find? (fun q => decide (q.1 = h)) with _ | q
  · exfalso
    rw [List.find?_eq_none] at hfind
    exact hfind p (List.mem_reverse.mpr hp) (by simp [hfst])
  · have hq1 : q.1 = h := by
      have := List.find?_some hfind
      simpa using this
    have hqmem : q ∈ pairs := List.mem_reverse.mp (List.mem_of_find?_eq_some hfind)
    refine ⟨ q.2, by simp [ringOwner, hfind], ?_ ⟩
    have : (h, q.2) = q := by
      rw [← hq1]
    rw [this]
    exact hqmem

/-- A failed `ring[h]` lookup means no member wrote hash `h`. -/
theorem ringOwner_none (pairs : List (Nat × StorageNode)) (h : Nat)
    (hmem : h ∉ pairs.map Prod.fst) : ringOwner pairs h = none := by
  rcases hfind : pairs.reverse.find? (fun q => decide (q.1 = h)) with _ | q
  · simp [ringOwner, hfind]
  · exfalso
    have hq1 : q.1 = h := by
      have := List.find?_some hfind
      simpa using this
    have hqmem : q ∈ pairs := List.mem_reverse.mp (List.mem_of_find?_eq_some hfind)
    exact hmem (List.mem_map.mpr ⟨ q, hqmem, hq1 ⟩)

/-- The configured replication factor 0 always resolves to the library
default 20, whatever the directory size. -/
theorem ringRF_always (order : List StorageNode) : ringRF order = defaultReplicationFactor :=
  rfl

/-- The configured load factor 1.25 is kept by the resolution. -/
theorem ringLQ_always (order : List StorageNode) : ringLQ order = 5 :=
  rfl

/-- `Add` registers every directory value when the derived keys are distinct
and none was seen before. -/
theorem addedNodes_eq_self (l : List StorageNode) (seen : List String)
    (hseen : ∀ n ∈ l, nodeStr n ∉ seen) (hnd : (l.map nodeStr).Nodup) :
    addedNodes l seen = l := by
  induction l generalizing seen with
  | nil => rfl
  | cons n ns ih =>
    simp only [List.map_cons, List.nodup_cons] at hnd
    rw [addedNodes, if_neg (hseen n (by simp))]
    congr 1
    apply ih
    · intro m hm hmem
      rcases List.mem_cons.mp hmem with heq | hseen2
      · exact hnd.1 (heq ▸ List.mem_map.mpr ⟨ m, hm, rfl ⟩)
      · exact hseen m (List.mem_cons_of_mem n hm) hseen2
    · exact hnd.2

theorem dedupNodes_eq_self (l : List StorageNode) (hnd : (l.map nodeStr).Nodup) :
    dedupNodes l = l :=
  addedNodes_eq_self l [] (by simp) hnd

/-- In a write sequence with distinct hashes, a hash determines its pair. -/
theorem pair_eq_of_nodup_fst (l : List (Nat × StorageNode)) (h : Nat) (a b : StorageNode)
    (hnd : (l.map Prod.fst).Nodup) (ha : (h, a) ∈ l) (hb : (h, b) ∈ l) : a = b := by
  induction l with
  | nil => cases ha
  | cons p ps ih =>
    simp only [List.map_cons, List.nodup_cons] at hnd
    rcases List.mem_cons.mp ha with rfl | ha2
    · rcases List.mem_cons.mp hb with heq | hb2
      · exact (congrArg Prod.snd heq).symm
      · exact absurd (List.mem_map.mpr ⟨ (h, b), hb2, rfl ⟩) hnd.1
    · rcases List.mem_cons.mp hb with rfl | hb2
      · exact absurd (List.mem_map.mpr ⟨ (h, a), ha2, rfl ⟩) hnd.1
      · exact ih hnd.2 ha2 hb2

/-- A successful ring lookup comes from the write sequence. -/
theorem ringOwner_some_mem (pairs : List (Nat × StorageNode)) (h : Nat) (n : StorageNode)
    (hf : ringOwner pairs h = some n) : (h, n) ∈ pairs := by
  unfold ringOwner at hf
  cases hfind : pairs.reverse.find? (fun q => decide (q.1 = h)) with
  | none => rw [hfind] at hf; cases hf
  | some q =>
    rw [hfind] at hf
    simp only [Option.map_some', Option.some.injEq] at hf
    have hq1 : q.1 = h := by simpa using List.find?_some hfind
    have hqmem := List.mem_reverse.mp (List.mem_of_find?_eq_some hfind)
    have hq : q = (h, n) := Prod.ext hq1 hf
    rwa [hq] at hqmem

/-- With distinct hashes the ring lookup returns exactly the writer. -/
theorem ringOwner_eq_of_mem (pairs : List (Nat × StorageNode)) (h : Nat) (n : StorageNode)
    (hnd : (pairs.map Prod.fst).Nodup) (hmem : (h, n) ∈ pairs) :
    ringOwner pairs h = some n := by
  have hm : h ∈ pairs.map Prod.fst := List.mem_map.mpr ⟨ (h, n), hmem, rfl ⟩
  obtain ⟨ m, hf, hpm ⟩ := ringOwner_mem pairs h hm
  rw [hf]
  exact congrArg some (pair_eq_of_nodup_fst pairs h m n hnd hpm hmem)

/-- With distinct hashes the ring contents do not depend on the registration
order. -/
theorem ringOwner_congr (p1 p2 : List (Nat × StorageNode)) (hperm : p1.Perm p2)
    (hnd : (p1.map Prod.fst).Nodup) (h : Nat) : ringOwner p1 h = ringOwner p2 h := by
  have hnd2 : (p2.map Prod.fst).Nodup := ((hperm.map Prod.fst).nodup_iff).mp hnd
  cases ho : ringOwner p1 h with
  | some n =>
    have hmem := ringOwner_some_mem p1 h n ho
    rw [ringOwner_eq_of_mem p2 h n hnd2 (hperm.mem_iff.mp hmem)]
  | none =>
    cases ho2 : ringOwner p2 h with
    | none => rfl
    | some n =>
      have hm1 : (h, n) ∈ p1 := hperm.mem_iff.mpr (ringOwner_some_mem p2 h n ho2)
      rw [ringOwner_eq_of_mem p1 h n hnd hm1] at ho
      cases ho

/-- The partition walk only observes the ring through lookups. -/
theorem distributeWithLoad_congr (ss : List Nat) (o1 o2 : Nat → Option StorageNode)
    (ho : ∀ h, o1 h = o2 h) (avg : Nat) (loads : String → Nat) (idx fuel : Nat) :
    distributeWithLoad ss o1 avg loads idx fuel
      = distributeWithLoad ss o2 avg loads idx fuel := by
  induction fuel generalizing idx with
  | zero => rfl
  | succ fuel ih =>
    simp only [distributeWithLoad]
    cases ss[idx]? with
    | none => rfl
    | some v =>
      change (match o1 v with
        | none => none
        | some m =>
          if loads (nodeStr m) + 1 ≤ avg then some m
          else distributeWithLoad ss o1 avg loads (if ss.length ≤ idx + 1 then 0 else idx + 1) fuel)
        = (match o2 v with
        | none => none
        | some m =>
          if loads (nodeStr m) + 1 ≤ avg then some m
          else distributeWithLoad ss o2 avg loads (if ss.length ≤ idx + 1 then 0 else idx + 1) fuel)
      rw [ho v]
      cases o2 v with
      | none => rfl
      | some m =>
        change (if loads (nodeStr m) + 1 ≤ avg then some m
            else distributeWithLoad ss o1 avg loads
              (if ss.length ≤ idx + 1 then 0 else idx + 1) fuel)
          = (if loads (nodeStr m) + 1 ≤ avg then some m
            else distributeWithLoad ss o2 avg loads
              (if ss.length ≤ idx + 1 then 0 else idx + 1) fuel)
        by_cases hl : loads (nodeStr m) + 1 ≤ avg
        · rw [if_pos hl, if_pos hl]
        · rw [if_neg hl, if_neg hl]
          exact ih _

/-- Partition distribution only observes the ring through lookups. -/
theorem distributeLoop_congr (ss : List Nat) (o1 o2 : Nat → Option StorageNode)
    (ho : ∀ h, o1 h = o2 h) (avg pc : Nat) (remaining : Nat) (loads : String → Nat)
    (parts : Nat → Option StorageNode) :
    distributeLoop ss o1 avg pc remaining loads parts
      = distributeLoop ss o2 avg pc remaining loads parts := by
  induction remaining generalizing loads parts with
  | zero => rfl
  | succ r ih =>
    simp only [distributeLoop]
    rw [distributeWithLoad_congr ss o1 o2 ho]
    cases distributeWithLoad ss o2 avg loads
      (searchIdx ss (xxh64 (leBytes8 (pc - (r + 1))))) (ss.length - 1) with
    | none => rfl
    | some m => exact ih _ _

/-- The write sequences of two iteration orders of the same directory are
permutations of each other. -/
theorem ringPairsOf_perm (o1 o2 : List StorageNode) (hperm : o1.Perm o2)
    (hstr : (o1.map nodeStr).Nodup) : (ringPairsOf o1).Perm (ringPairsOf o2) := by
  have hstr2 : (o2.map nodeStr).Nodup := ((hperm.map nodeStr).nodup_iff).mp hstr
  unfold ringPairsOf ringPairs
  rw [ringRF_always, ringRF_always, dedupNodes_eq_self o1 hstr, dedupNodes_eq_self o2 hstr2]
  exact hperm.flatMap_right _

/-- The sorted hash list does not depend on the iteration order. -/
theorem ringSS_congr (o1 o2 : List StorageNode) (hperm : o1.Perm o2)
    (hstr : (o1.map nodeStr).Nodup) : ringSS o1 = ringSS o2 := by
  have hpp := ringPairsOf_perm o1 o2 hperm hstr
  unfold ringSS
  have hs1 : List.Sorted (fun a b : Nat => a ≤ b)
      (List.insertionSort (fun a b => a ≤ b) ((ringPairsOf o1).map Prod.fst)) :=
    List.sorted_insertionSort _ _
  have hs2 : List.Sorted (fun a b : Nat => a ≤ b)
      (List.insertionSort (fun a b => a ≤ b) ((ringPairsOf o2).map Prod.fst)) :=
    List.sorted_insertionSort _ _
  exact List.eq_of_perm_of_sorted
    (((List.perm_insertionSort _ _).trans (hpp.map Prod.fst)).trans
      (List.perm_insertionSort _ _).symm) hs1 hs2

/-- C2: routing is a pure function of the DIRECTORY and the key: two runs of
`registerStorageNodes` + `LocateKey` that iterate the same directory map in
different orders (Go map iteration order is arbitrary) make the same routing
decision, provided the directory keys are distinct (a map invariant) and the
20 replica hashes of the members do not collide. -/
theorem routing_deterministic (o1 o2 : List StorageNode) (k : List Nat)
    (hperm : o1.Perm o2)
    (hstr : (o1.map nodeStr).Nodup)
    (hhash : ((ringPairsOf o1).map Prod.fst).Nodup) :
    routeKey o1 k = routeKey o2 k := by
  have hstr2 : (o2.map nodeStr).Nodup := ((hperm.map nodeStr).nodup_iff).mp hstr
  have hpp := ringPairsOf_perm o1 o2 hperm hstr
  have hss := ringSS_congr o1 o2 hperm hstr
  have hpc : ringPC o1 = ringPC o2 := by
    unfold ringPC
    rw [hperm.length_eq]
  have havg : ringAvg o1 = ringAvg o2 := by
    unfold ringAvg ringLQ
    rw [dedupNodes_eq_self o1 hstr, dedupNodes_eq_self o2 hstr2, hperm.length_eq, hpc]
  have howner : ∀ h, ringOwner (ringPairsOf o1) h = ringOwner (ringPairsOf o2) h :=
    ringOwner_congr _ _ hpp hhash
  have hparts : ringParts o1 = ringParts o2 := by
    unfold ringParts
    cases ho1 : o1 with
    | nil =>
      have ho2 : o2 = [] := (ho1 ▸ hperm).symm.eq_nil
      rw [ho2]
    | cons n ns =>
      have hne2 : o2 ≠ [] := by
        intro hn
        rw [hn] at hperm
        rw [hperm.eq_nil] at ho1
        cases ho1
      have he1 : o1.isEmpty = false := by
        rw [ho1]
        rfl
      have he2 : o2.isEmpty = false := by
        cases o2 with
        | nil => exact absurd rfl hne2
        | cons m ms => rfl
      rw [← ho1, he1, he2]
      simp only [Bool.false_eq_true, if_false]
      rw [hss, hpc, havg]
      exact distributeLoop_congr _ _ _ howner _ _ _ _ _
  rw [routeKey_eq, routeKey_eq, hparts, hpc]

/-- C2 witness: two iteration orders of the two-node directory route "foo"
identically; the key-distinctness and hash-distinctness side conditions hold
for the concrete fixture. -/
theorem routing_deterministic_witness :
    routeKey [nodeA, nodeB] fooKey = routeKey [nodeB, nodeA] fooKey :=
  routing_deterministic [nodeA, nodeB] [nodeB, nodeA] fooKey
    (List.Perm.swap nodeB nodeA []) (by decide) (by decide)

/-! ### Discovery toolkit (C8) -/

/-- One `containerLoop` step, phrased through the entry it contributes
(`none` stays the nil-pointer panic). -/
theorem discoverStep_eq (acc : List (String × StorageNode)) (c : ContainerInfo) :
    discoverStep acc c = (keptEntry c).map (fun e =>
      match e with
      | none => acc
      | some kv => assocPut acc kv.1 kv.2) := by
  unfold discoverStep keptEntry
  cases c.networks with
  | none => rfl
  | some nets =>
    cases hnl : netLookup nets with
    | none => simp [hnl]
    | some ip =>
      by_cases hg : goContains (nodeOfContainer c ip).name workerContainerNamePattern = true
      · simp [hnl, hg]
      · simp [hnl, hg]

/-- `keptEntry` on a candidate without network settings: skipped. -/
theorem keptEntry_no_networks (c : ContainerInfo) (h : c.networks = none) :
    keptEntry c = some none := by
  unfold keptEntry
  rw [h]

/-- `keptEntry` on a candidate whose network settings lack the configured
network: the nil `*EndpointSettings` dereference panics. -/
theorem keptEntry_off_network (c : ContainerInfo) (nets : List (String × String))
    (h : c.networks = some nets) (hnl : netLookup nets = none) :
    keptEntry c = none := by
  unfold keptEntry
  rw [h]
  show (match netLookup nets with
    | none => none
    | some ip =>
      let node := nodeOfContainer c ip
      if goContains node.name workerContainerNamePattern then
        some (some (nodeStr node, node))
      else some none) = none
  rw [hnl]

/-- `keptEntry` on a candidate attached to the configured network. -/
theorem keptEntry_attached (c : ContainerInfo) (nets : List (String × String)) (ip : String)
    (h : c.networks = some nets) (hnl : netLookup nets = some ip) :
    keptEntry c =
      (if goContains (nodeOfContainer c ip).name workerContainerNamePattern then
        some (some (nodeStr (nodeOfContainer c ip), nodeOfContainer c ip))
      else some none) := by
  unfold keptEntry
  rw [h]
  show (match netLookup nets with
    | none => none
    | some ip =>
      let node := nodeOfContainer c ip
      if goContains node.name workerContainerNamePattern then
        some (some (nodeStr node, node))
      else some none)
    = (if goContains (nodeOfContainer c ip).name workerContainerNamePattern then
        some (some (nodeStr (nodeOfContainer c ip), nodeOfContainer c ip))
      else some none)
  rw [hnl]

/-- `contributedEntry` reads off a panic-free `keptEntry`. -/
theorem contributedEntry_of_keptEntry (c : ContainerInfo)
    (e : Option (String × StorageNode)) (h : keptEntry c = some e) :
    contributedEntry c = e := by
  unfold contributedEntry
  rw [h]
  cases e with
  | none => rfl
  | some kv => rfl

/-- Go map insertion is a plain append when the key is new. -/
theorem assocPut_of_not_mem {α : Type} (m : List (String × α)) (k : String) (v : α)
    (h : k ∉ m.map Prod.fst) : assocPut m k v = m ++ [(k, v)] := by
  unfold assocPut
  congr 1
  apply List.filter_eq_self.mpr
  intro p hp
  simp only [decide_eq_true_eq]
  intro hpk
  exact h (List.mem_map.mpr ⟨ p, hp, hpk ⟩)

/-- The directory fold succeeds and is a plain append of the contributed
entries when every candidate is network-safe and the contributed keys are
distinct and disjoint from the accumulator. -/
theorem getStorageNodes_go (cs : List ContainerInfo) (acc : List (String × StorageNode))
    (hsafe : ∀ c ∈ cs, networkSafe c = true)
    (hdisj : ∀ p ∈ acc, ∀ q ∈ cs.filterMap contributedEntry, p.1 ≠ q.1)
    (hnd : ((cs.filterMap contributedEntry).map Prod.fst).Nodup) :
    getStorageNodesGo cs acc = some (acc ++ cs.filterMap contributedEntry) := by
  induction cs generalizing acc with
  | nil => simp [getStorageNodesGo]
  | cons c cs ih =>
    have hke : keptEntry c ≠ none := by
      have hs := hsafe c (by simp)
      unfold networkSafe at hs
      exact Option.isSome_iff_ne_none.mp hs
    unfold getStorageNodesGo
    rw [discoverStep_eq]
    cases hk : keptEntry c with
    | none => exact absurd hk hke
    | some e =>
      cases e with
      | none =>
        have hcn : contributedEntry c = none := by
          unfold contributedEntry
          rw [hk]
        rw [List.filterMap_cons_none hcn] at hdisj hnd ⊢
        show getStorageNodesGo cs acc = some (acc ++ List.filterMap contributedEntry cs)
        exact ih acc (fun c2 hc2 => hsafe c2 (by simp [hc2])) hdisj hnd
      | some kv =>
        obtain ⟨ k, v ⟩ := kv
        have hcs : contributedEntry c = some (k, v) := by
          unfold contributedEntry
          rw [hk]
        rw [List.filterMap_cons_some hcs] at hdisj hnd ⊢
        have hknew : k ∉ acc.map Prod.fst := by
          intro hmem
          obtain ⟨ p, hp, hpk ⟩ := List.mem_map.mp hmem
          exact hdisj p hp (k, v) (by simp) hpk
        show getStorageNodesGo cs (assocPut acc k v)
          = some (acc ++ (k, v) :: List.filterMap contributedEntry cs)
        rw [assocPut_of_not_mem acc k v hknew]
        simp only [List.map_cons, List.nodup_cons] at hnd
        rw [ih (acc ++ [(k, v)]) (fun c2 hc2 => hsafe c2 (by simp [hc2])) ?_ hnd.2,
          List.append_assoc]
        rfl
        intro p hp q hq
        rcases List.mem_append.mp hp with hpa | hpk
        · exact hdisj p hpa q (List.mem_cons_of_mem _ hq)
        · have hpe : p = (k, v) := by simpa using hpk
          rw [hpe]
          intro hkq
          apply hnd.1
          rw [show k = q.1 from hkq]
          exact List.mem_map.mpr ⟨ q, hq, rfl ⟩

/-- Panic-free discovery: with every candidate network-safe and distinct
contributed keys, the directory is exactly the contributed entries. -/
theorem getStorageNodes_eq (cs : List ContainerInfo)
    (hsafe : ∀ c ∈ cs, networkSafe c = true)
    (hnd : ((cs.filterMap contributedEntry).map Prod.fst).Nodup) :
    getStorageNodes cs = some (cs.filterMap contributedEntry) :=
  getStorageNodes_go cs [] hsafe (by simp) hnd

/-- What it takes for a candidate to contribute a given entry. -/
theorem contributedEntry_eq_some_iff (c : ContainerInfo) (k : String) (n : StorageNode) :
    contributedEntry c = some (k, n) ↔
      ∃ nets ip, c.networks = some nets ∧ netLookup nets = some ip ∧
        goContains (nodeOfContainer c ip).name workerContainerNamePattern = true ∧
        n = nodeOfContainer c ip ∧ k = nodeStr n := by
  cases hn : c.networks with
  | none =>
    rw [contributedEntry_of_keptEntry c none (keptEntry_no_networks c hn)]
    constructor
    · intro hf
      cases hf
    · rintro ⟨ nets2, ip2, hn2, _, _, _, _ ⟩
      cases hn2
  | some nets =>
    cases hnl : netLookup nets with
    | none =>
      have hce : contributedEntry c = none := by
        unfold contributedEntry
        rw [keptEntry_off_network c nets hn hnl]
      rw [hce]
      constructor
      · intro hf
        cases hf
      · rintro ⟨ nets2, ip2, hn2, hnl2, _, _, _ ⟩
        have he2 : nets = nets2 := Option.some.inj hn2
        rw [← he2, hnl] at hnl2
        cases hnl2
    | some ip =>
      by_cases hg : goContains (nodeOfContainer c ip).name workerContainerNamePattern = true
      · have hke := keptEntry_attached c nets ip hn hnl
        rw [if_pos hg] at hke
        rw [contributedEntry_of_keptEntry c _ hke]
        constructor
        · intro hsome
          have hpair : (nodeStr (nodeOfContainer c ip), nodeOfContainer c ip) = (k, n) :=
            Option.some.inj hsome
          have hk2 : nodeStr (nodeOfContainer c ip) = k := congrArg Prod.fst hpair
          have hv2 : nodeOfContainer c ip = n := congrArg Prod.snd hpair
          exact ⟨ nets, ip, rfl, hnl, hg, hv2.symm, by rw [← hk2, hv2] ⟩
        · rintro ⟨ nets2, ip2, hn2, hnl2, _, hv, hk2 ⟩
          have he2 : nets = nets2 := Option.some.inj hn2
          rw [← he2, hnl] at hnl2
          have hip : ip = ip2 := Option.some.inj hnl2
          rw [← hip] at hv
          subst hv
          rw [hk2]
      · have hke := keptEntry_attached c nets ip hn hnl
        rw [if_neg hg] at hke
        rw [contributedEntry_of_keptEntry c _ hke]
        constructor
        · intro hf
          cases hf
        · rintro ⟨ nets2, ip2, hn2, hnl2, hg2, _, _ ⟩
          have he2 : nets = nets2 := Option.some.inj hn2
          rw [← he2, hnl] at hnl2
          have hip : ip = ip2 := Option.some.inj hnl2
          rw [← hip] at hg2
          exact absurd hg2 hg

/-- C8 counterexample: a running candidate whose first declared name matches
the worker pattern but which is attached only to a network other than the
configured one is neither included nor skipped: composing its endpoint
dereferences the nil `*EndpointSettings` under the configured network's key
(storage.go line 162), before the name check runs, so discovery panics
instead of returning a directory. -/
theorem discovery_panics_off_network :
    getStorageNodes [offNetworkContainer] = none ∧
    goContains ((offNetworkContainer.names.head?).getD "") workerContainerNamePattern
      = true ∧
    offNetworkContainer.networks ≠ none := by
  refine ⟨ rfl, by decide, by decide ⟩

/-- C8 (amended): discovery does not always return the name-filtered
directory: a candidate carrying network settings that lack the configured
network makes it panic on a nil `*EndpointSettings` before the name check.
On an inventory free of such candidates and with distinct derived keys (a
map invariant), discovery succeeds and the directory contains exactly the
running candidates attached to the configured network whose first declared
name contains the worker-name pattern — candidates without network settings
are skipped non-fatally — and each included node's endpoint is composed as
`<private-ip>:<port>` from the candidate's IP on the configured virtual
network and the fixed storage port. -/
theorem discovery_directory_characterization (cs : List ContainerInfo)
    (hsafe : ∀ c ∈ cs, networkSafe c = true)
    (hnd : ((cs.filterMap contributedEntry).map Prod.fst).Nodup) :
    ∃ dir, getStorageNodes cs = some dir ∧
      ∀ k n, ((k, n) ∈ dir ↔
        ∃ c ∈ cs, ∃ nets ip, c.networks = some nets ∧ netLookup nets = some ip ∧
          goContains (nodeOfContainer c ip).name workerContainerNamePattern = true ∧
          n = nodeOfContainer c ip ∧ k = nodeStr n ∧
          n.endpoint = ip ++ ":" ++ Nat.repr minioWorkerPort) := by
  refine ⟨ cs.filterMap contributedEntry, getStorageNodes_eq cs hsafe hnd, ?_ ⟩
  intro k n
  rw [List.mem_filterMap]
  constructor
  · rintro ⟨ c, hc, hk ⟩
    obtain ⟨ nets, ip, hn2, hnl, hg, hv, hkey ⟩ := (contributedEntry_eq_some_iff c k n).mp hk
    exact ⟨ c, hc, nets, ip, hn2, hnl, hg, hv, hkey, by rw [hv]; rfl ⟩
  · rintro ⟨ c, hc, nets, ip, hn2, hnl, hg, hv, hkey, _ ⟩
    exact ⟨ c, hc,
      (contributedEntry_eq_some_iff c k n).mpr ⟨ nets, ip, hn2, hnl, hg, hv, hkey ⟩ ⟩

/-- C8 witness: on a panic-free mixed inventory — a worker attached to the
configured network, a network-less candidate and a foreign-named container —
discovery returns a directory satisfying the membership characterization. -/
theorem discovery_directory_characterization_witness :
    ∃ dir, getStorageNodes [worker1, noNetContainer, foreignContainer] = some dir ∧
      ∀ k n, ((k, n) ∈ dir ↔
        ∃ c ∈ [worker1, noNetContainer, foreignContainer], ∃ nets ip,
          c.networks = some nets ∧ netLookup nets = some ip ∧
          goContains (nodeOfContainer c ip).name workerContainerNamePattern = true ∧
          n = nodeOfContainer c ip ∧ k = nodeStr n ∧
          n.endpoint = ip ++ ":" ++ Nat.repr minioWorkerPort) :=
  discovery_directory_characterization [worker1, noNetContainer, foreignContainer]
    (by decide) (by decide)

/-! ### Coverage toolkit (C3) -/

/-- Every write in the sequence belongs to a registered member. -/
theorem ringPairs_snd_mem (rf : Nat) (l : List StorageNode) (h : Nat) (m : StorageNode)
    (hmem : (h, m) ∈ ringPairs rf l) : m ∈ l := by
  unfold ringPairs at hmem
  obtain ⟨ nd, hnd, hin ⟩ := List.mem_flatMap.mp hmem
  obtain ⟨ v, _, heq ⟩ := List.mem_map.mp hin
  injection heq with h1 h2
  subst h2
  exact hnd

/-- The hash list of the write sequence is the flat map of replica hashes. -/
theorem ringPairs_map_fst (rf : Nat) (l : List StorageNode) :
    (ringPairs rf l).map Prod.fst = l.flatMap (replicaHashes rf) := by
  induction l with
  | nil => rfl
  | cons nd rest ih =>
    unfold ringPairs at ih ⊢
    simp only [List.flatMap_cons, List.map_append, ih]
    congr 1
    rw [List.map_map]
    have hcomp : Prod.fst ∘ (fun h : Nat => (h, nd)) = id := rfl
    rw [hcomp, List.map_id]

/-- Every member contributes `rf` writes. -/
theorem ringPairs_length (rf : Nat) (l : List StorageNode) :
    (ringPairs rf l).length = l.length * rf := by
  induction l with
  | nil => simp [ringPairs]
  | cons nd rest ih =>
    unfold ringPairs at ih ⊢
    simp only [List.flatMap_cons, List.length_append, ih, List.length_map, List.length_cons]
    have hl : (replicaHashes rf nd).length = rf := by
      simp [replicaHashes, replicaKeys]
    rw [hl]
    ring

/-- The function yielded by `f a` is a sublist of the flat map over any list
containing `a`. -/
theorem flatMap_sublist_of_mem {α β : Type} (f : α → List β) (l : List α) (a : α)
    (h : a ∈ l) : List.Sublist (f a) (l.flatMap f) := by
  obtain ⟨ s, t, rfl ⟩ := List.append_of_mem h
  rw [List.flatMap_append, List.flatMap_cons]
  exact (List.sublist_append_left (f a) (t.flatMap f)).trans
    (List.sublist_append_right (s.flatMap f) _)

/-- With distinct directory keys and collision-free replica hashes, every
entry of the sorted set has an owner, and that owner is in the directory. -/
theorem owner_total (order : List StorageNode) (hstr : (order.map nodeStr).Nodup)
    (v : Nat) (hv : v ∈ ringSS order) :
    ∃ m, ringOwner (ringPairsOf order) v = some m ∧ m ∈ order := by
  have hvm : v ∈ (ringPairsOf order).map Prod.fst :=
    (List.perm_insertionSort _ _).mem_iff.mp hv
  obtain ⟨ m, hf, hpm ⟩ := ringOwner_mem _ _ hvm
  refine ⟨ m, hf, ?_ ⟩
  unfold ringPairsOf at hpm
  have := ringPairs_snd_mem _ _ _ _ hpm
  rwa [dedupNodes_eq_self order hstr] at this

/-- Each directory member owns at least two distinct positions of the sorted
set (its replicas at indices 0 and 1 hash differently by collision
freedom). -/
theorem member_two_positions (order : List StorageNode)
    (hstr : (order.map nodeStr).Nodup)
    (hhash : ((ringPairsOf order).map Prod.fst).Nodup)
    (m : StorageNode) (hm : m ∈ order) :
    ∃ i j, ∃ hi : i < (ringSS order).length, ∃ hj : j < (ringSS order).length, i ≠ j ∧
      ringOwner (ringPairsOf order) ((ringSS order).get ⟨ i, hi ⟩) = some m ∧
      ringOwner (ringPairsOf order) ((ringSS order).get ⟨ j, hj ⟩) = some m := by
  have hpairs : ringPairsOf order = ringPairs 20 order := by
    unfold ringPairsOf
    rw [ringRF_always, dedupNodes_eq_self order hstr]
    rfl
  have hmem01 : ∀ i, i < 20 →
      (xxh64 (utf8Bytes (nodeStr m ++ Nat.repr i)), m) ∈ ringPairsOf order := by
    intro i hi
    rw [hpairs]
    unfold ringPairs
    apply List.mem_flatMap.mpr
    refine ⟨ m, hm, List.mem_map.mpr ⟨ xxh64 (utf8Bytes (nodeStr m ++ Nat.repr i)), ?_, rfl ⟩ ⟩
    unfold replicaHashes replicaKeys
    rw [List.map_map]
    exact List.mem_map.mpr ⟨ i, List.mem_range.mpr hi, rfl ⟩
  have hnodupm : (replicaHashes 20 m).Nodup := by
    apply List.Nodup.sublist (flatMap_sublist_of_mem (replicaHashes 20) order m hm)
    rw [← ringPairs_map_fst, ← hpairs]
    exact hhash
  have hne01 : xxh64 (utf8Bytes (nodeStr m ++ Nat.repr 0))
      ≠ xxh64 (utf8Bytes (nodeStr m ++ Nat.repr 1)) := by
    intro heq
    unfold replicaHashes replicaKeys at hnodupm
    rw [List.map_map] at hnodupm
    have hinj := List.inj_on_of_nodup_map hnodupm
    have h01 : (0 : Nat) = 1 := hinj (List.mem_range.mpr (by omega))
      (List.mem_range.mpr (by omega)) heq
    cases h01
  have hv0ss : xxh64 (utf8Bytes (nodeStr m ++ Nat.repr 0)) ∈ ringSS order := by
    apply (List.perm_insertionSort _ _).mem_iff.mpr
    exact List.mem_map.mpr ⟨ _, hmem01 0 (by omega), rfl ⟩
  have hv1ss : xxh64 (utf8Bytes (nodeStr m ++ Nat.repr 1)) ∈ ringSS order := by
    apply (List.perm_insertionSort _ _).mem_iff.mpr
    exact List.mem_map.mpr ⟨ _, hmem01 1 (by omega), rfl ⟩
  obtain ⟨ i, hi, hssi ⟩ := List.getElem_of_mem hv0ss
  obtain ⟨ j, hj, hssj ⟩ := List.getElem_of_mem hv1ss
  refine ⟨ i, j, hi, hj, ?_, ?_, ?_ ⟩
  · intro hij
    apply hne01
    subst hij
    rw [← hssi]
    exact hssj
  · have hgi : (ringSS order).get ⟨ i, hi ⟩ = xxh64 (utf8Bytes (nodeStr m ++ Nat.repr 0)) := by
      rw [List.get_eq_getElem]
      exact hssi
    rw [hgi]
    exact ringOwner_eq_of_mem _ _ _ hhash (hmem01 0 (by omega))
  · have hgj : (ringSS order).get ⟨ j, hj ⟩ = xxh64 (utf8Bytes (nodeStr m ++ Nat.repr 1)) := by
      rw [List.get_eq_getElem]
      exact hssj
    rw [hgj]
    exact ringOwner_eq_of_mem _ _ _ hhash (hmem01 1 (by omega))

/-- The total load held by the directory members. -/
def loadsSum (loads : String → Nat) (l : List StorageNode) : Nat :=
  (l.map (fun nd => loads (nodeStr nd))).sum

theorem map_loads_congr (rest : List StorageNode) (f g : String → Nat)
    (h : ∀ x ∈ rest, f (nodeStr x) = g (nodeStr x)) :
    rest.map (fun nd => f (nodeStr nd)) = rest.map (fun nd => g (nodeStr nd)) := by
  induction rest with
  | nil => rfl
  | cons nd r ih =>
    rw [List.map_cons, List.map_cons, h nd (by simp), ih (fun x hx => h x (by simp [hx]))]

/-- Incrementing one member's load increments the total by exactly one, when
the member keys are distinct. -/
theorem loadsSum_bump (l : List StorageNode) (hstr : (l.map nodeStr).Nodup)
    (m : StorageNode) (hm : m ∈ l) (loads : String → Nat) :
    loadsSum (fun s => if s = nodeStr m then loads s + 1 else loads s) l
      = loadsSum loads l + 1 := by
  induction l with
  | nil => cases hm
  | cons nd rest ih =>
    simp only [List.map_cons, List.nodup_cons] at hstr
    unfold loadsSum at ih ⊢
    simp only [List.map_cons, List.sum_cons]
    rcases List.mem_cons.mp hm with rfl | hm2
    · rw [if_pos rfl]
      have hrest : rest.map
            (fun nd => if nodeStr nd = nodeStr m then loads (nodeStr nd) + 1
              else loads (nodeStr nd))
          = rest.map (fun nd => loads (nodeStr nd)) :=
        map_loads_congr rest (fun s => if s = nodeStr m then loads s + 1 else loads s) loads
          (fun x hx => by
            show (if nodeStr x = nodeStr m then loads (nodeStr x) + 1
              else loads (nodeStr x)) = loads (nodeStr x)
            rw [if_neg]
            intro he
            exact hstr.1 (he ▸ List.mem_map.mpr ⟨ x, hx, rfl ⟩))
      rw [hrest]
      omega
    · have hne : nodeStr nd ≠ nodeStr m := by
        intro he
        apply hstr.1
        rw [he]
        exact List.mem_map.mpr ⟨ m, hm2, rfl ⟩
      rw [if_neg hne, ih hstr.2 hm2]
      omega

/-- A pointwise lower bound on loads gives a lower bound on the total. -/
theorem loadsSum_lower (l : List StorageNode) (loads : String → Nat) (c : Nat)
    (h : ∀ x ∈ l, c ≤ loads (nodeStr x)) : l.length * c ≤ loadsSum loads l := by
  unfold loadsSum
  induction l with
  | nil => simp
  | cons nd rest ih =>
    simp only [List.map_cons, List.sum_cons, List.length_cons]
    have h1 := h nd (by simp)
    have h2 := ih (fun x hx => h x (by simp [hx]))
    have : (rest.length + 1) * c = rest.length * c + c := by ring
    omega

/-- Walking `len - 1` consecutive ring positions from any start hits at least
one of any two distinct positions. -/
theorem cycle_hits_two (len idx i j : Nat) (hidx : idx < len) (hi : i < len) (hj : j < len)
    (hne : i ≠ j) :
    ∃ t, t < len - 1 ∧ ((idx + t) % len = i ∨ (idx + t) % len = j) := by
  have hpos : 0 < len := Nat.lt_of_le_of_lt (Nat.zero_le idx) hidx
  have hvisit : ∀ x, x < len → (idx + (x + len - idx) % len) % len = x := by
    intro x hx
    rw [Nat.add_mod_mod]
    have harith : idx + (x + len - idx) = x + len := by omega
    rw [harith, Nat.add_mod_right, Nat.mod_eq_of_lt hx]
  have hdi := hvisit i hi
  have hdj := hvisit j hj
  have hdij : (i + len - idx) % len ≠ (j + len - idx) % len := by
    intro he
    apply hne
    rw [← hdi, ← hdj, he]
  have hdi_lt : (i + len - idx) % len < len := Nat.mod_lt _ hpos
  have hdj_lt : (j + len - idx) % len < len := Nat.mod_lt _ hpos
  rcases Nat.lt_or_ge ((i + len - idx) % len) ((j + len - idx) % len) with hlt | hge
  · exact ⟨ (i + len - idx) % len, by omega, Or.inl hdi ⟩
  · have : (j + len - idx) % len < (i + len - idx) % len :=
      Nat.lt_of_le_of_ne hge (Ne.symm hdij)
    exact ⟨ (j + len - idx) % len, by omega, Or.inr hdj ⟩

/-- If the walk runs out of fuel, every position it examined — the `fuel`
consecutive positions starting at the cursor — is owned by a member whose
load is already at the average. -/
theorem distributeWithLoad_none_full (ss : List Nat) (owner : Nat → Option StorageNode)
    (avg : Nat) (loads : String → Nat)
    (howner : ∀ v ∈ ss, ∃ m, owner v = some m) :
    ∀ fuel idx, idx < ss.length →
      distributeWithLoad ss owner avg loads idx fuel = none →
      ∀ j, j < fuel → ∀ m, ∀ hlt : (idx + j) % ss.length < ss.length,
        owner (ss.get ⟨ (idx + j) % ss.length, hlt ⟩) = some m →
        avg < loads (nodeStr m) + 1 := by
  intro fuel
  induction fuel with
  | zero =>
    intro idx _ _ j hj
    exact absurd hj (Nat.not_lt_zero j)
  | succ fuel ih =>
    intro idx hidx hnone j hj m hlt howv
    have hpos : 0 < ss.length := Nat.lt_of_le_of_lt (Nat.zero_le idx) hidx
    have hval : ss[idx]? = some ss[idx] := List.getElem?_eq_getElem hidx
    unfold distributeWithLoad at hnone
    rw [hval] at hnone
    obtain ⟨ m0, hm0 ⟩ := howner ss[idx] (List.getElem_mem hidx)
    change (match owner ss[idx] with
      | none => none
      | some m2 =>
        if loads (nodeStr m2) + 1 ≤ avg then some m2
        else distributeWithLoad ss owner avg loads
          (if ss.length ≤ idx + 1 then 0 else idx + 1) fuel) = none at hnone
    rw [hm0] at hnone
    change (if loads (nodeStr m0) + 1 ≤ avg then some m0
        else distributeWithLoad ss owner avg loads
          (if ss.length ≤ idx + 1 then 0 else idx + 1) fuel) = none at hnone
    by_cases hl : loads (nodeStr m0) + 1 ≤ avg
    · rw [if_pos hl] at hnone
      cases hnone
    · rw [if_neg hl] at hnone
      have hnext : (if ss.length ≤ idx + 1 then 0 else idx + 1) = (idx + 1) % ss.length := by
        by_cases hc : ss.length ≤ idx + 1
        · rw [if_pos hc]
          have he : idx + 1 = ss.length := by omega
          rw [he, Nat.mod_self]
        · rw [if_neg hc, Nat.mod_eq_of_lt (by omega)]
      rw [hnext] at hnone
      cases j with
      | zero =>
        have hj0 : (idx + 0) % ss.length = idx := by
          rw [Nat.add_zero, Nat.mod_eq_of_lt hidx]
        simp only [hj0, List.get_eq_getElem] at howv
        rw [hm0] at howv
        injection howv with hmm
        subst hmm
        omega
      | succ j2 =>
        have hidx2 : (idx + 1) % ss.length < ss.length := Nat.mod_lt _ hpos
        have heq : ((idx + 1) % ss.length + j2) % ss.length = (idx + (j2 + 1)) % ss.length := by
          rw [Nat.mod_add_mod]
          congr 1
          omega
        have hlt2 : ((idx + 1) % ss.length + j2) % ss.length < ss.length :=
          Nat.mod_lt _ hpos
        have howv2 : owner (ss.get ⟨ ((idx + 1) % ss.length + j2) % ss.length, hlt2 ⟩)
            = some m := by
          simp only [heq]
          exact howv
        exact ih ((idx + 1) % ss.length) hidx2 hnone j2 (by omega) m hlt2 howv2

/-- A successful walk returns the owner of some ring position. -/
theorem distributeWithLoad_some_owner (ss : List Nat) (owner : Nat → Option StorageNode)
    (avg : Nat) (loads : String → Nat) :
    ∀ fuel idx m, distributeWithLoad ss owner avg loads idx fuel = some m →
      ∃ v ∈ ss, owner v = some m := by
  intro fuel
  induction fuel with
  | zero =>
    intro idx m h
    cases h
  | succ fuel ih =>
    intro idx m h
    unfold distributeWithLoad at h
    cases hval : ss[idx]? with
    | none =>
      rw [hval] at h
      cases h
    | some v =>
      rw [hval] at h
      change (match owner v with
        | none => none
        | some m2 =>
          if loads (nodeStr m2) + 1 ≤ avg then some m2
          else distributeWithLoad ss owner avg loads
            (if ss.length ≤ idx + 1 then 0 else idx + 1) fuel) = some m at h
      cases ho : owner v with
      | none =>
        rw [ho] at h
        cases h
      | some m2 =>
        rw [ho] at h
        change (if loads (nodeStr m2) + 1 ≤ avg then some m2
            else distributeWithLoad ss owner avg loads
              (if ss.length ≤ idx + 1 then 0 else idx + 1) fuel) = some m at h
        by_cases hl : loads (nodeStr m2) + 1 ≤ avg
        · rw [if_pos hl] at h
          injection h with hmm
          subst hmm
          have hvm : v ∈ ss := by
            have := List.getElem?_eq_some_iff.mp hval
            obtain ⟨ hlt, hrfl ⟩ := this
            rw [← hrfl]
            exact List.getElem_mem hlt
          exact ⟨ v, hvm, ho ⟩
        · rw [if_neg hl] at h
          exact ih _ m h

theorem ringPC_nonempty (order : List StorageNode) (hne : order ≠ []) :
    ringPC order = order.length := by
  unfold ringPC resolveConfig ringConfigFor
  have hlen : order.length ≠ 0 := fun hl => hne (List.length_eq_zero.mp hl)
  simp [hlen]

theorem ringAvg_nonempty (order : List StorageNode) (hne : order ≠ [])
    (hstr : (order.map nodeStr).Nodup) : ringAvg order = 2 := by
  unfold ringAvg
  rw [dedupNodes_eq_self order hstr, ringLQ_always, ringPC_nonempty order hne]
  unfold averageLoad
  have hlen : order.length ≠ 0 := fun hl => hne (List.length_eq_zero.mp hl)
  rw [if_neg hlen, Nat.div_self (Nat.pos_of_ne_zero hlen)]

theorem ringSS_length (order : List StorageNode) (hstr : (order.map nodeStr).Nodup) :
    (ringSS order).length = order.length * 20 := by
  have h1 := (List.perm_insertionSort (fun a b : Nat => a ≤ b)
    ((ringPairsOf order).map Prod.fst)).length_eq
  unfold ringSS
  rw [h1, List.length_map]
  unfold ringPairsOf
  rw [ringRF_always, dedupNodes_eq_self order hstr]
  exact ringPairs_length 20 order

/-- The core invariant argument: partition distribution over a collision-free
ring with `n` members, partition count `n` and average load 2 never panics,
and it assigns every remaining partition to a directory member.  The loads
sum counts the partitions already placed. -/
theorem distributeLoop_success (order : List StorageNode) (hne : order ≠ [])
    (hstr : (order.map nodeStr).Nodup)
    (hhash : ((ringPairsOf order).map Prod.fst).Nodup) :
    ∀ remaining, remaining ≤ order.length →
    ∀ loads parts, loadsSum loads order = order.length - remaining →
      ∃ P, distributeLoop (ringSS order) (ringOwner (ringPairsOf order)) 2 order.length
          remaining loads parts = some P ∧
        (∀ q, q < order.length - remaining → P q = parts q) ∧
        (∀ q, order.length - remaining ≤ q → q < order.length →
          ∃ m, P q = some m ∧ m ∈ order) := by
  have hpos : 0 < order.length := List.length_pos.mpr hne
  have hsslen : (ringSS order).length = order.length * 20 := ringSS_length order hstr
  have hsspos : 0 < (ringSS order).length := by
    rw [hsslen]
    omega
  intro remaining
  induction remaining with
  | zero =>
    intro _ loads parts _
    exact ⟨ parts, rfl, fun q _ => rfl, fun q hq1 hq2 => absurd hq2 (by omega) ⟩
  | succ r ih =>
    intro hle loads parts hsum
    have hidx : searchIdx (ringSS order) (xxh64 (leBytes8 (order.length - (r + 1))))
        < (ringSS order).length := searchIdx_lt _ _ hsspos
    have hndwl : distributeWithLoad (ringSS order) (ringOwner (ringPairsOf order)) 2 loads
        (searchIdx (ringSS order) (xxh64 (leBytes8 (order.length - (r + 1)))))
        ((ringSS order).length - 1) ≠ none := by
      intro hnone
      have hfull : ∀ m ∈ order, 2 < loads (nodeStr m) + 1 := by
        intro m hm
        obtain ⟨ i, j, hi, hj, hij, hoi, hoj ⟩ := member_two_positions order hstr hhash m hm
        obtain ⟨ t, ht, hcase ⟩ := cycle_hits_two (ringSS order).length
          (searchIdx (ringSS order) (xxh64 (leBytes8 (order.length - (r + 1))))) i j
          hidx hi hj hij
        apply distributeWithLoad_none_full (ringSS order) (ringOwner (ringPairsOf order))
          2 loads (fun v hv => ((owner_total order hstr v hv).imp (fun m2 h2 => h2.1)))
          ((ringSS order).length - 1)
          (searchIdx (ringSS order) (xxh64 (leBytes8 (order.length - (r + 1)))))
          hidx hnone t ht m (Nat.mod_lt _ hsspos)
        rcases hcase with hc | hc
        · simp only [hc]
          exact hoi
        · simp only [hc]
          exact hoj
      have hub : order.length * 2 ≤ loadsSum loads order := by
        apply loadsSum_lower
        intro x hx
        have := hfull x hx
        omega
      omega
    cases hdwl : distributeWithLoad (ringSS order) (ringOwner (ringPairsOf order)) 2 loads
        (searchIdx (ringSS order) (xxh64 (leBytes8 (order.length - (r + 1)))))
        ((ringSS order).length - 1) with
    | none => exact absurd hdwl hndwl
    | some m0 =>
      obtain ⟨ v0, hv0, hov0 ⟩ := distributeWithLoad_some_owner _ _ _ _ _ _ _ hdwl
      obtain ⟨ m0b, hm0b, hm0mem ⟩ := owner_total order hstr v0 hv0
      have hm0 : m0 ∈ order := by
        rw [hov0] at hm0b
        injection hm0b with hb
        rw [hb]
        exact hm0mem
      have hsum2 : loadsSum (fun s => if s = nodeStr m0 then loads s + 1 else loads s) order
          = order.length - r := by
        rw [loadsSum_bump order hstr m0 hm0 loads, hsum]
        omega
      obtain ⟨ P, hP, huntouched, hcov ⟩ := ih (by omega)
        (fun s => if s = nodeStr m0 then loads s + 1 else loads s)
        (fun p => if p = order.length - (r + 1) then some m0 else parts p) hsum2
      refine ⟨ P, ?_, ?_, ?_ ⟩
      · unfold distributeLoop
        change (match distributeWithLoad (ringSS order) (ringOwner (ringPairsOf order)) 2
            loads (searchIdx (ringSS order) (xxh64 (leBytes8 (order.length - (r + 1)))))
            ((ringSS order).length - 1) with
          | none => none
          | some m =>
            distributeLoop (ringSS order) (ringOwner (ringPairsOf order)) 2 order.length r
              (fun s => if s = nodeStr m then loads s + 1 else loads s)
              (fun p => if p = order.length - (r + 1) then some m else parts p)) = some P
        rw [hdwl]
        exact hP
      · intro q hq
        rw [huntouched q (by omega)]
        rw [if_neg (by omega)]
      · intro q hq1 hq2
        by_cases hq : q = order.length - (r + 1)
        · rw [huntouched q (by omega), hq, if_pos rfl]
          exact ⟨ m0, rfl, hm0 ⟩
        · exact hcov q (by omega) hq2

/-- With a non-empty collision-free directory the partition table is total
over the resolved partition count and maps into the directory. -/
theorem ringParts_covers (order : List StorageNode) (hne : order ≠ [])
    (hstr : (order.map nodeStr).Nodup)
    (hhash : ((ringPairsOf order).map Prod.fst).Nodup) :
    ∃ P, ringParts order = some P ∧
      ∀ q, q < order.length → ∃ m, P q = some m ∧ m ∈ order := by
  have hzero : loadsSum (fun _ => 0) order = order.length - order.length := by
    unfold loadsSum
    rw [Nat.sub_self]
    induction order with
    | nil => rfl
    | cons nd rest ih => simp [ih]
  obtain ⟨ P, hP, _, hcov ⟩ := distributeLoop_success order hne hstr hhash
    order.length (Nat.le_refl _) (fun _ => 0) (fun _ => none) hzero
  refine ⟨ P, ?_, fun q hq => hcov q (by omega) hq ⟩
  unfold ringParts
  have he : order.isEmpty = false := by
    cases order with
    | nil => exact absurd rfl hne
    | cons nd rest => rfl
  rw [he]
  simp only [Bool.false_eq_true, if_false]
  rw [ringPC_nonempty order hne, ringAvg_nonempty order hne hstr]
  exact hP

/-- C3: for every non-empty directory (with the map invariant of distinct
node keys and collision-free replica hashes) and every key, routing succeeds
and yields a member of that directory — no key is unrouted, and since
`routeKey` is a function the routed node is unique. -/
theorem routing_covers (order : List StorageNode) (hne : order ≠ [])
    (hstr : (order.map nodeStr).Nodup)
    (hhash : ((ringPairsOf order).map Prod.fst).Nodup) (k : List Nat) :
    ∃ m, routeKey order k = some m ∧ m ∈ order := by
  have hpos : 0 < order.length := List.length_pos.mpr hne
  obtain ⟨ P, hP, hcov ⟩ := ringParts_covers order hne hstr hhash
  obtain ⟨ m, hm, hmem ⟩ := hcov (xxh64 k % order.length) (Nat.mod_lt _ hpos)
  refine ⟨ m, ?_, hmem ⟩
  rw [routeKey_eq, hP, ringPC_nonempty order hne]
  exact hm

/-- C3 witness: the two-node fixture covers the key "foo". -/
theorem routing_covers_witness :
    ∃ m, routeKey [nodeA, nodeB] fooKey = some m ∧ m ∈ [nodeA, nodeB] :=
  routing_covers [nodeA, nodeB] (by decide) (by decide) (by decide) fooKey

/-! ### Round-trip toolkit (C4) -/

theorem map_congr_mem {α β : Type} (l : List α) (f g : α → β)
    (h : ∀ x ∈ l, f x = g x) : l.map f = l.map g := by
  induction l with
  | nil => rfl
  | cons a r ih =>
    rw [List.map_cons, List.map_cons, h a (by simp), ih (fun x hx => h x (by simp [hx]))]

/-- Every entry of a successfully discovered directory is keyed by its
node's `String()`. -/
theorem getStorageNodes_key_eq (cs : List ContainerInfo)
    (dir : List (String × StorageNode)) (hdir : getStorageNodes cs = some dir) :
    ∀ k n, (k, n) ∈ dir → k = nodeStr n := by
  have hgo : ∀ (l : List ContainerInfo) (acc : List (String × StorageNode)),
      (∀ k n, (k, n) ∈ acc → k = nodeStr n) →
      ∀ d, getStorageNodesGo l acc = some d →
      ∀ k n, (k, n) ∈ d → k = nodeStr n := by
    intro l
    induction l with
    | nil =>
      intro acc hacc d hd k n hm
      have he : acc = d := by
        unfold getStorageNodesGo at hd
        exact Option.some.inj hd
      rw [← he] at hm
      exact hacc k n hm
    | cons c cs2 ih =>
      intro acc hacc d hd k n hm
      unfold getStorageNodesGo at hd
      rw [discoverStep_eq] at hd
      cases hk : keptEntry c with
      | none =>
        rw [hk] at hd
        cases hd
      | some e =>
        rw [hk] at hd
        cases e with
        | none =>
          change getStorageNodesGo cs2 acc = some d at hd
          exact ih acc hacc d hd k n hm
        | some kv =>
          obtain ⟨ k2, v2 ⟩ := kv
          change getStorageNodesGo cs2 (assocPut acc k2 v2) = some d at hd
          refine ih (assocPut acc k2 v2) ?_ d hd k n hm
          intro k3 n3 hm3
          unfold assocPut at hm3
          rcases List.mem_append.mp hm3 with hfil | hnew
          · exact hacc k3 n3 (List.mem_of_mem_filter hfil)
          · have hkv : (k3, n3) = (k2, v2) := by simpa using hnew
            have hc3 : contributedEntry c = some (k3, n3) := by
              unfold contributedEntry
              rw [hk, hkv]
            obtain ⟨ nets, ip, _, _, _, _, hkey ⟩ :=
              (contributedEntry_eq_some_iff c k3 n3).mp hc3
            exact hkey
  exact hgo cs [] (by simp) dir hdir

/-- Go map lookup on the directory returns the stored node. -/
theorem dirGet_eq (dir : List (String × StorageNode)) (hkeys : (dir.map Prod.fst).Nodup)
    (k : String) (n : StorageNode) (hmem : (k, n) ∈ dir) : dirGet dir k = n := by
  induction dir with
  | nil => cases hmem
  | cons p rest ih =>
    simp only [List.map_cons, List.nodup_cons] at hkeys
    by_cases hpk : p.1 = k
    · have hfind : (p :: rest).find? (fun q => decide (q.1 = k)) = some p := by
        rw [List.find?_cons]
        simp [hpk]
      unfold dirGet
      rw [hfind]
      rcases List.mem_cons.mp hmem with heq | hrest
      · rw [← heq]
        rfl
      · exfalso
        apply hkeys.1
        rw [hpk]
        exact List.mem_map.mpr ⟨ (k, n), hrest, rfl ⟩
    · have hfind : (p :: rest).find? (fun q => decide (q.1 = k))
          = rest.find? (fun q => decide (q.1 = k)) := by
        rw [List.find?_cons]
        simp [hpk]
      have hrest : (k, n) ∈ rest := by
        rcases List.mem_cons.mp hmem with heq | hr
        · exfalso
          apply hpk
          rw [← heq]
        · exact hr
      unfold dirGet at ih ⊢
      rw [hfind]
      exact ih hkeys.2 hrest

/-- Provisioning on a failure-free backend succeeds and leaves the object
store untouched. -/
theorem minioSetup_faultless (cfg : MinioConfig) (w : MinioWorld) (hf : Faultless w) :
    ∃ w2, minioSetup cfg w = Except.ok w2 ∧ Faultless w2 ∧ w2.objects = w.objects := by
  unfold minioSetup
  rw [hf.1 cfg.endpoint cfg.bucketName]
  by_cases hb : w.hasBucket cfg.endpoint cfg.bucketName = true
  · rw [if_pos hb]
    exact ⟨ w, rfl, hf, rfl ⟩
  · rw [if_neg hb, hf.2.1 cfg.endpoint cfg.bucketName]
    exact ⟨ _, rfl, hf, rfl ⟩

/-- Storing on a failure-free backend succeeds and records the object. -/
theorem minioPut_faultless (cfg : MinioConfig) (w : MinioWorld) (id ct : String)
    (body : List Nat) (hf : Faultless w) :
    ∃ w2, minioPut cfg w id ct body = Except.ok w2 ∧ Faultless w2 ∧
      w2.objects cfg.endpoint cfg.bucketName id = some (ct, body) := by
  unfold minioPut
  rw [hf.2.2.1 cfg.endpoint cfg.bucketName id]
  refine ⟨ _, rfl, hf, ?_ ⟩
  show (if cfg.endpoint = cfg.endpoint ∧ cfg.bucketName = cfg.bucketName ∧ id = id
    then some (ct, body) else w.objects cfg.endpoint cfg.bucketName id) = some (ct, body)
  rw [if_pos ⟨ rfl, rfl, rfl ⟩]

/-- Fetching a stored object from a failure-free backend returns its body and
content type. -/
theorem minioGet_hit (cfg : MinioConfig) (w : MinioWorld) (id ct : String) (body : List Nat)
    (hf : Faultless w)
    (hobj : w.objects cfg.endpoint cfg.bucketName id = some (ct, body)) :
    minioGet cfg w id = Except.ok (body, ct) := by
  unfold minioGet
  rw [hf.2.2.2.1 cfg.endpoint cfg.bucketName id, hobj,
    hf.2.2.2.2.1 cfg.endpoint cfg.bucketName id, hf.2.2.2.2.2 cfg.endpoint cfg.bucketName id]

/-- The router's worker acquisition, on a routed key and a failure-free
backend: it returns the selected node's configuration and identifier, having
only (possibly) created the bucket. -/
theorem getStorageWorker_ok (containers : List ContainerInfo) (order : List StorageNode)
    (w : MinioWorld) (bucket id : String) (dir : List (String × StorageNode)) (m : StorageNode)
    (hdir : getStorageNodes containers = some dir)
    (hroute : routeKey order (utf8Bytes id) = some m)
    (hf : Faultless w) :
    ∃ w2, getStorageWorker containers order w bucket id
        = GoOutcome.ok (configOf (dirGet dir (nodeStr m)) bucket, nodeStr m, w2)
      ∧ Faultless w2 ∧ w2.objects = w.objects := by
  rw [routeKey_eq] at hroute
  cases hP : ringParts order with
  | none =>
    rw [hP] at hroute
    cases hroute
  | some p =>
    rw [hP] at hroute
    have hp2 : p (xxh64 (utf8Bytes id) % ringPC order) = some m := hroute
    obtain ⟨ w2, hset, hf2, hobj2 ⟩ := minioSetup_faultless
      (configOf (dirGet dir (nodeStr m)) bucket) w hf
    refine ⟨ w2, ?_, hf2, hobj2 ⟩
    show (match getStorageNodes containers with
      | none => GoOutcome.panic
      | some dir =>
        match (buildRing order).parts with
        | none => GoOutcome.panic
        | some p =>
          match p (xxh64 (utf8Bytes id) % (buildRing order).pc) with
          | none => GoOutcome.panic
          | some m =>
            match minioSetup (configOf (dirGet dir (nodeStr m)) bucket) w with
            | Except.error e => GoOutcome.fail e
            | Except.ok w2 => GoOutcome.ok
                (configOf (dirGet dir (nodeStr m)) bucket, nodeStr m, w2))
      = GoOutcome.ok (configOf (dirGet dir (nodeStr m)) bucket, nodeStr m, w2)
    rw [hdir]
    show (match (buildRing order).parts with
      | none => GoOutcome.panic
      | some p =>
        match p (xxh64 (utf8Bytes id) % (buildRing order).pc) with
        | none => GoOutcome.panic
        | some m =>
          match minioSetup (configOf (dirGet dir (nodeStr m)) bucket) w with
          | Except.error e => GoOutcome.fail e
          | Except.ok w2 => GoOutcome.ok
              (configOf (dirGet dir (nodeStr m)) bucket, nodeStr m, w2))
      = GoOutcome.ok (configOf (dirGet dir (nodeStr m)) bucket, nodeStr m, w2)
    rw [buildRing_parts, hP]
    show (match p (xxh64 (utf8Bytes id) % (buildRing order).pc) with
      | none => GoOutcome.panic
      | some m =>
        match minioSetup (configOf (dirGet dir (nodeStr m)) bucket) w with
        | Except.error e => GoOutcome.fail e
        | Except.ok w2 => GoOutcome.ok
            (configOf (dirGet dir (nodeStr m)) bucket, nodeStr m, w2))
      = GoOutcome.ok (configOf (dirGet dir (nodeStr m)) bucket, nodeStr m, w2)
    rw [buildRing_pc, hp2]
    show (match minioSetup (configOf (dirGet dir (nodeStr m)) bucket) w with
      | Except.error e => GoOutcome.fail e
      | Except.ok w2 => GoOutcome.ok
          (configOf (dirGet dir (nodeStr m)) bucket, nodeStr m, w2))
      = GoOutcome.ok (configOf (dirGet dir (nodeStr m)) bucket, nodeStr m, w2)
    rw [hset]

/-- C4: when discovery returns an unchanged, non-empty directory, over a
failure-free backend, `Put(id, contentType, body)` followed by `Get(id)`
routes both calls to the same node (whatever iteration orders the two map
traversals use) and returns the full stored body and the stored content type
verbatim, with no error.  The backend itself is spec-modelled (opaque
put/get capability). -/
theorem put_get_roundtrip (containers : List ContainerInfo) (order1 order2 : List StorageNode)
    (w : MinioWorld) (bucket id ct : String) (body : List Nat)
    (dir : List (String × StorageNode))
    (hdir : getStorageNodes containers = some dir)
    (hne : dir ≠ [])
    (hkeys : (dir.map Prod.fst).Nodup)
    (ho1 : order1.Perm (dir.map Prod.snd))
    (ho2 : order2.Perm (dir.map Prod.snd))
    (hhash : ((ringPairsOf order1).map Prod.fst).Nodup)
    (hf : Faultless w) :
    ∃ w3, balancedPut containers order1 w bucket id ct body = GoOutcome.ok w3 ∧
      balancedGet containers order2 w3 bucket id = GoOutcome.ok (body, ct) := by
  have hvals_str : (dir.map Prod.snd).map nodeStr = dir.map Prod.fst := by
    rw [List.map_map]
    exact (map_congr_mem _ Prod.fst (nodeStr ∘ Prod.snd)
      (fun p hp => getStorageNodes_key_eq containers dir hdir p.1 p.2 hp)).symm
  have hstrv : ((dir.map Prod.snd).map nodeStr).Nodup := by
    rw [hvals_str]
    exact hkeys
  have hstr1 : (order1.map nodeStr).Nodup := ((ho1.map nodeStr).nodup_iff).mpr hstrv
  have hone : order1 ≠ [] := by
    intro h0
    rw [h0] at ho1
    have hv : dir.map Prod.snd = [] := ho1.symm.eq_nil
    exact hne (List.map_eq_nil_iff.mp hv)
  obtain ⟨ m, hroute1, hm1 ⟩ := routing_covers order1 hone hstr1 hhash (utf8Bytes id)
  have hperm12 : order1.Perm order2 := ho1.trans ho2.symm
  have hroute2 : routeKey order2 (utf8Bytes id) = some m := by
    rw [← routing_deterministic order1 order2 (utf8Bytes id) hperm12 hstr1 hhash]
    exact hroute1
  have hmdir : (nodeStr m, m) ∈ dir := by
    have hmv : m ∈ dir.map Prod.snd := ho1.mem_iff.mp hm1
    obtain ⟨ pr, hpr, hsnd ⟩ := List.mem_map.mp hmv
    obtain ⟨ a, b ⟩ := pr
    have hk := getStorageNodes_key_eq containers dir hdir a b hpr
    subst hsnd
    subst hk
    exact hpr
  obtain ⟨ w2, hgw1, hf2, _ ⟩ := getStorageWorker_ok containers order1 w bucket id dir m
    hdir hroute1 hf
  obtain ⟨ w3, hput, hf3, hobj3 ⟩ := minioPut_faultless
    (configOf (dirGet dir (nodeStr m)) bucket) w2 id ct body hf2
  refine ⟨ w3, ?_, ?_ ⟩
  · show (match getStorageWorker containers order1 w bucket id with
      | GoOutcome.panic => GoOutcome.panic
      | GoOutcome.fail e => GoOutcome.fail e
      | GoOutcome.ok (cfg, storageID, w2) =>
        match minioPut cfg w2 id ct body with
        | Except.error e =>
          GoOutcome.fail ("cannot put using worker \x27" ++ storageID ++ "\x27, err: " ++ e)
        | Except.ok w3 => GoOutcome.ok w3) = GoOutcome.ok w3
    rw [hgw1]
    show (match minioPut (configOf (dirGet dir (nodeStr m)) bucket)
        w2 id ct body with
      | Except.error e =>
        GoOutcome.fail ("cannot put using worker \x27" ++ nodeStr m ++ "\x27, err: " ++ e)
      | Except.ok w3 => GoOutcome.ok w3) = GoOutcome.ok w3
    rw [hput]
  · obtain ⟨ w4, hgw2, hf4, hobj4 ⟩ := getStorageWorker_ok containers order2 w3 bucket id
      dir m hdir hroute2 hf3
    show (match getStorageWorker containers order2 w3 bucket id with
      | GoOutcome.panic => GoOutcome.panic
      | GoOutcome.fail e => GoOutcome.fail e
      | GoOutcome.ok (cfg, storageID, w2) =>
        match minioGet cfg w2 id with
        | Except.error e =>
          GoOutcome.fail ("cannot get using worker \x27" ++ storageID ++ "\x27, err: " ++ e)
        | Except.ok r => GoOutcome.ok r) = GoOutcome.ok (body, ct)
    rw [hgw2]
    show (match minioGet (configOf (dirGet dir (nodeStr m)) bucket)
        w4 id with
      | Except.error e =>
        GoOutcome.fail ("cannot get using worker \x27" ++ nodeStr m ++ "\x27, err: " ++ e)
      | Except.ok r => GoOutcome.ok r) = GoOutcome.ok (body, ct)
    have hobjw4 : w4.objects
        (configOf (dirGet dir (nodeStr m)) bucket).endpoint
        (configOf (dirGet dir (nodeStr m)) bucket).bucketName id
        = some (ct, body) := by
      rw [hobj4]
      exact hobj3
    rw [minioGet_hit _ w4 id ct body hf4 hobjw4]

/-- C4 witness: a one-worker inventory on the idle backend round-trips the
object "foo". -/
theorem put_get_roundtrip_witness :
    ∃ w3, balancedPut [worker1] [worker1Node] idleWorld "default" "foo" "text/plain"
        [104, 105] = GoOutcome.ok w3 ∧
      balancedGet [worker1] [worker1Node] w3 "default" "foo"
        = GoOutcome.ok ([104, 105], "text/plain") :=
  put_get_roundtrip [worker1] [worker1Node] [worker1Node] idleWorld "default" "foo"
    "text/plain" [104, 105] [(nodeStr worker1Node, worker1Node)] (by decide) (by decide)
    (by decide) (by decide) (by decide) (by decide)
    ⟨ fun _ _ => rfl, fun _ _ => rfl, fun _ _ _ => rfl, fun _ _ _ => rfl,
      fun _ _ _ => rfl, fun _ _ _ => rfl ⟩

/-- `distributeWithLoad` stops at the entry under the cursor when its owner
still has room. -/
theorem distributeWithLoad_first (ss : List Nat) (owner : Nat → Option StorageNode)
    (avg : Nat) (loads : String → Nat) (idx fuel : Nat) (m : StorageNode)
    (hidx : idx < ss.length)
    (howner : owner ss[idx] = some m)
    (hload : loads (nodeStr m) + 1 ≤ avg) :
    distributeWithLoad ss owner avg loads idx (fuel + 1) = some m := by
  simp only [distributeWithLoad, List.getElem?_eq_getElem hidx, howner, hload, if_pos]

/-- `distributePartitions` for a single partition (`pc = 1`). -/
theorem distributeLoop_one (ss : List Nat) (owner : Nat → Option StorageNode)
    (avg : Nat) (loads : String → Nat) (parts : Nat → Option StorageNode) (m : StorageNode)
    (hdwl : distributeWithLoad ss owner avg loads
      (searchIdx ss (xxh64 (leBytes8 0))) (ss.length - 1) = some m) :
    distributeLoop ss owner avg 1 1 loads parts =
      some (fun p => if p = 0 then some m else parts p) := by
  simp only [distributeLoop, Nat.sub_self, hdwl]

/-- A one-member ring routes every key to that member (the `Add` path gives
the member 20 replica positions, the partition count resolves to 1, the
average load to 2, and the first examined position — whoever it is — belongs
to the only member and has room). -/
theorem routeKey_single (A : StorageNode) (k : List Nat) : routeKey [A] k = some A := by
  have hdedup : dedupNodes [A] = [A] := by
    simp [dedupNodes, addedNodes]
  have hrf : ringRF [A] = 20 := rfl
  have hpc : ringPC [A] = 1 := rfl
  have hlq : ringLQ [A] = 5 := rfl
  have havg : ringAvg [A] = 2 := by
    unfold ringAvg
    rw [hdedup, hpc, hlq]
    simp [averageLoad]
  have hpairs : ringPairsOf [A] = ringPairs 20 [A] := by
    unfold ringPairsOf
    rw [hrf, hdedup]
  have hsnd : ∀ p ∈ ringPairs 20 [A], p.2 = A := by
    intro p hp
    simp only [ringPairs, List.flatMap_cons, List.flatMap_nil, List.append_nil] at hp
    obtain ⟨ h, _, rfl ⟩ := List.mem_map.mp hp
    rfl
  have hlenpairs : (ringPairs 20 [A]).length = 20 := by
    simp [ringPairs, replicaHashes, replicaKeys]
  have hperm : List.Perm (ringSS [A]) ((ringPairsOf [A]).map Prod.fst) :=
    List.perm_insertionSort _ _
  have hlenss : (ringSS [A]).length = 20 := by
    rw [hperm.length_eq, hpairs, List.length_map, hlenpairs]
  have hsslt : 0 < (ringSS [A]).length := by omega
  have hidx : searchIdx (ringSS [A]) (xxh64 (leBytes8 0)) < (ringSS [A]).length :=
    searchIdx_lt _ _ hsslt
  have howner : ringOwner (ringPairs 20 [A])
      (ringSS [A])[searchIdx (ringSS [A]) (xxh64 (leBytes8 0))] = some A := by
    have hmem : (ringSS [A])[searchIdx (ringSS [A]) (xxh64 (leBytes8 0))]
        ∈ (ringPairs 20 [A]).map Prod.fst := by
      have hm : (ringSS [A])[searchIdx (ringSS [A]) (xxh64 (leBytes8 0))] ∈ ringSS [A] :=
        List.getElem_mem hidx
      rw [← hpairs]
      exact hperm.mem_iff.mp hm
    obtain ⟨ n, hfind, hpair ⟩ := ringOwner_mem _ _ hmem
    rw [hfind]
    exact congrArg some (hsnd _ hpair)
  have hdwl : distributeWithLoad (ringSS [A]) (ringOwner (ringPairs 20 [A])) 2 (fun _ => 0)
      (searchIdx (ringSS [A]) (xxh64 (leBytes8 0))) ((ringSS [A]).length - 1) = some A := by
    have h19 : (ringSS [A]).length - 1 = 18 + 1 := by omega
    rw [h19]
    exact distributeWithLoad_first _ _ 2 (fun _ => 0) _ 18 A hidx howner (by simp)
  have hloop := distributeLoop_one (ringSS [A]) (ringOwner (ringPairs 20 [A])) 2 (fun _ => 0)
    (fun _ => none) A hdwl
  have hparts : ringParts [A] = some (fun p => if p = 0 then some A else none) := by
    unfold ringParts
    rw [if_neg (by simp), havg, hpc, hpairs]
    exact hloop
  rw [routeKey_eq, hparts, hpc, Nat.mod_one]
  rfl

/-- C9 (amended): the general bounded-disruption claim fails (see the
counterexample: the partition count tracks the directory size), but the
spec's concrete scenario holds: in a two-node directory where key "foo"
routes to nodeB, rebuilding the ring after removing nodeB routes "foo" — and
every other key, in particular keys already mapped to nodeA — to nodeA, the
only remaining member. -/
theorem two_node_scenario_after_removal (A B : StorageNode) (k : List Nat)
    (_hfoo : routeKey [A, B] fooKey = some B) :
    routeKey [A] fooKey = some A ∧ routeKey [A] k = some A :=
  ⟨ routeKey_single A fooKey, routeKey_single A k ⟩

/-- C9 amended-claim witness: the concrete two-node directory of the
counterexample fixture, with "bar" as a key already mapped to nodeA. -/
theorem two_node_scenario_after_removal_witness :
    routeKey [nodeA] fooKey = some nodeA ∧ routeKey [nodeA] (utf8Bytes "bar") = some nodeA :=
  two_node_scenario_after_removal nodeA nodeB (utf8Bytes "bar") (by decide)

/-- C1: the claim states that routing against an empty directory fails with a
no-available-nodes error and never panics nor selects a nil node.  The code
has no such guard: with zero discovered nodes `LocateKey` returns a `nil`
member and `getStorageWorker` panics dereferencing it with `.String()`
(storage.go line 208), for every world, bucket and key. -/
theorem empty_directory_routing_panics (w : MinioWorld) (bucket id : String) :
    getStorageWorker [] [] w bucket id = GoOutcome.panic := rfl

/-- C1 witness: the panic at concrete inputs. -/
theorem empty_directory_routing_panics_witness :
    getStorageWorker [] [] idleWorld "default" "foo" = GoOutcome.panic :=
  empty_directory_routing_panics idleWorld "default" "foo"

/-- C6 counterexample: for the EMPTY directory the claim fails — the ring is
built with partition count 0, which `consistent.New` replaces by the library
default 271, not by the number of directory entries (0). -/
theorem partition_count_from_default_on_empty_directory :
    (buildRing []).pc = 271 ∧ (buildRing []).pc ≠ ([] : List StorageNode).length := by
  constructor
  · rfl
  · decide

/-- C6 (amended): for every NON-empty directory the ring is built with
partition count equal to the number of directory entries, and the
replication factor — passed as 0, meaning "library default" — resolves to
the fixed constant 20 on every build. -/
theorem ring_built_with_length_partitions (order : List StorageNode) (h : order ≠ []) :
    (buildRing order).pc = order.length ∧ (buildRing order).rf = defaultReplicationFactor := by
  have hlen : order.length ≠ 0 := fun hl => h (List.length_eq_zero.mp hl)
  constructor
  · simp [buildRing, ringPC, resolveConfig, ringConfigFor, hlen]
  · simp [buildRing, ringRF, resolveConfig, ringConfigFor, defaultReplicationFactor]

/-- C6 witness: the amended claim at a one-node directory. -/
theorem ring_built_with_length_partitions_witness :
    (buildRing [nodeA]).pc = [nodeA].length ∧
    (buildRing [nodeA]).rf = defaultReplicationFactor :=
  ring_built_with_length_partitions [nodeA] (by decide)

/-- C7 counterexample: the claim states the value mapped for an environment
entry is the ENTIRE remainder after the first `=`.  The code splits with
`strings.Split` at every `=` and keeps only the second segment: the entry
`MINIO_SECRET_KEY=a=b` maps to `a`, not to `a=b`. -/
theorem env_value_truncated_at_second_eq :
    assocGetStr (parseEnv [secretKeyEnv ++ "=a=b"]) secretKeyEnv = "a" ∧
    assocGetStr (parseEnv [secretKeyEnv ++ "=a=b"]) secretKeyEnv ≠ "a=b" := by
  constructor
  · rfl
  · decide

/-- C7 (amended): each environment entry is split at EVERY `=`; an entry with
at least two segments maps its first segment to its second segment (the text
between the first and the second `=`, not the whole remainder), later entries
overwriting earlier ones, and the credential fields are read from this
mapping at the two fixed variable names. -/
theorem env_entry_maps_first_to_second_segment (es : List String) (e k v : String)
    (rest : List String) (h : goSplitEq e = k :: v :: rest)
    (c : ContainerInfo) (ip : String) :
    parseEnv (es ++ [e]) = assocPut (parseEnv es) k v ∧
    assocGetStr (parseEnv (es ++ [e])) k = v ∧
    (nodeOfContainer c ip).accessKey = assocGetStr (parseEnv c.env) accessKeyEnv ∧
    (nodeOfContainer c ip).secretKey = assocGetStr (parseEnv c.env) secretKeyEnv := by
  have hstep : parseEnv (es ++ [e]) = assocPut (parseEnv es) k v := by
    simp only [parseEnv, List.foldl_append, List.foldl_cons, List.foldl_nil, h]
  refine ⟨ hstep, ?_, rfl, rfl ⟩
  rw [hstep]
  have hnone : (List.filter (fun p => decide (p.1 ≠ k)) (parseEnv es)).find?
      (fun p => decide (p.1 = k)) = none := by
    rw [List.find?_eq_none]
    intro p hp
    have hmem := List.of_mem_filter hp
    simp only [decide_eq_true_eq] at hmem
    simp [hmem]
  simp only [assocPut, assocGetStr, List.find?_append, hnone, Option.none_or,
    List.find?_cons, decide_True, decide_eq_true_eq]
  simp

/-- C7 amended-claim witness: the parse of `MINIO_SECRET_KEY=a=b` maps the
key to the middle segment `a`. -/
theorem env_entry_maps_first_to_second_segment_witness :
    parseEnv ([] ++ [secretKeyEnv ++ "=a=b"]) = assocPut (parseEnv []) secretKeyEnv "a" ∧
    assocGetStr (parseEnv ([] ++ [secretKeyEnv ++ "=a=b"])) secretKeyEnv = "a" ∧
    (nodeOfContainer worker1 "10.0.0.2").accessKey
      = assocGetStr (parseEnv worker1.env) accessKeyEnv ∧
    (nodeOfContainer worker1 "10.0.0.2").secretKey
      = assocGetStr (parseEnv worker1.env) secretKeyEnv :=
  env_entry_maps_first_to_second_segment [] (secretKeyEnv ++ "=a=b") secretKeyEnv "a" ["b"]
    (by rfl) worker1 "10.0.0.2"

/-- C9 counterexample: removing a node that is NOT the one the key routes to
can still change the key's routing decision, because the partition count
tracks the directory size.  Key "foo" routes to nodeA in the directory
{nodeA, nodeB, nodeC}; after removing nodeC — not foo's owner — it routes to
nodeB. -/
theorem removing_non_owner_changes_routing :
    routeKey [nodeA, nodeB, nodeC] fooKey = some nodeA ∧
    routeKey [nodeA, nodeB] fooKey = some nodeB ∧
    nodeC ≠ nodeA ∧ nodeA ≠ nodeB := by
  refine ⟨ by decide, by decide, by decide, by decide ⟩

/-- C5: the claim states that a connection/provisioning failure on the
selected node is annotated with the node's identifier.  It is not: the
annotation at storage.go lines 222-225 sits behind a second `if err != nil`
that can only run after `Setup` succeeded, so it is dead code, and the raw
`Setup` error is returned.  Here the selected node is `n1` and the returned
error mentions neither its id, its name, nor `storageNode.String()`. -/
theorem provision_failure_not_annotated :
    getStorageWorker [worker1] [worker1Node] probeFailWorld "default" "foo"
      = GoOutcome.fail "cannot get bucket info, err: boom" ∧
    goContains "cannot get bucket info, err: boom" worker1Node.id = false ∧
    goContains "cannot get bucket info, err: boom" (nodeStr worker1Node) = false := by
  refine ⟨ by rfl, by decide, by decide ⟩

/-- C10: bulk `Setup` provisions the directory nodes in iteration order and
aborts at the first failing node, returning that node's error wrapped with
its identifier and never attempting the remaining nodes: if every node of
`pre` provisions successfully (reaching world `w2`) and `bad` then fails with
`e`, the loop returns the wrapped error for `bad` and the attempted nodes are
exactly `pre ++ [bad]`. -/
theorem bulk_setup_aborts_on_first_failure (bucket : String) (pre : List StorageNode)
    (bad : StorageNode) (post : List StorageNode) (w w2 : MinioWorld) (e : String)
    (hpre : balancedSetupLoop bucket pre w = (GoOutcome.ok w2, pre))
    (hbad : minioSetup (configOf bad bucket) w2 = Except.error e) :
    balancedSetupLoop bucket (pre ++ bad :: post) w =
      (GoOutcome.fail ("cannot setup storage " ++ nodeStr bad ++ ", err: " ++ e),
       pre ++ [bad]) := by
  induction pre generalizing w with
  | nil =>
    simp only [balancedSetupLoop] at hpre
    have hw : w = w2 := by
      have := congrArg Prod.fst hpre
      simpa using this
    subst hw
    simp [balancedSetupLoop, hbad]
  | cons n ns ih =>
    simp only [balancedSetupLoop] at hpre
    cases hset : minioSetup (configOf n bucket) w with
    | error e2 =>
      rw [hset] at hpre
      simp at hpre
    | ok w1 =>
      rw [hset] at hpre
      simp only [Prod.mk.injEq, List.cons.injEq] at hpre
      have h1 : balancedSetupLoop bucket ns w1 = (GoOutcome.ok w2, ns) := by
        obtain ⟨ ha, _, hb ⟩ := hpre
        exact Prod.ext ha hb
      simp only [List.cons_append, balancedSetupLoop, hset, List.append_eq, ih w1 h1]

/-- C10 witness: with a one-node directory whose probe fails, `Setup` aborts
at that node with the wrapped error and attempts only that node. -/
theorem bulk_setup_aborts_on_first_failure_witness :
    balancedSetupLoop "default" ([] ++ nodeA :: [nodeB]) probeFailWorld =
      (GoOutcome.fail ("cannot setup storage " ++ nodeStr nodeA ++
        ", err: cannot get bucket info, err: boom"),
       [] ++ [nodeA]) :=
  bulk_setup_aborts_on_first_failure "default" [] nodeA [nodeB] probeFailWorld
    probeFailWorld "cannot get bucket info, err: boom" (by rfl) (by rfl)

end ObjectStorage
